import Mathlib

/-!
# Verification of `tsp.cc`

A shallow embedding of the C++ program `tsp.cc`: a union-find structure,
Kruskal's minimum-spanning-tree algorithm (`mst`), a metric-TSP
2-approximation (`metric_tsp`), and a Held-Karp-style exact TSP solver
(`tsp`).  `float` costs are modelled as rationals (all claims under
verification restrict attention to finite cost values); machine loops that
can run out of bounds or diverge are modelled with explicit fuel and
`Option`, `none` marking an execution that the C++ program would enter
undefined behaviour on (an out-of-bounds read or an uninitialized-variable
read).
-/

namespace Tsp

/-- A cost matrix, read as `cost[i][j]`. -/
def Cost : Type := Nat → Nat → ℚ

/-- `struct Edge { int head, tail; float cost; }`. -/
structure Edge where
  head : Nat
  tail : Nat
  cost : ℚ
deriving DecidableEq, Repr

/-- `struct UnionFind { vector<int> parent; vector<int> rank; }`. -/
structure UnionFind where
  parent : List Nat
  rnk : List Nat
deriving DecidableEq, Repr

/-- The `UnionFind(n)` constructor: `make_set(i)` for every `i < n`,
so `parent[i] = i` and `rank[i] = 0`. -/
def ufInit (n : Nat) : UnionFind :=
  ⟨List.range n, List.replicate n 0⟩

/-- `find_set` with path compression, on the parent vector:
`if (parent[i] != i) parent[i] = find_set(parent[i]); return parent[i];`.
The C++ recursion is modelled with fuel; `none` models non-termination
(impossible on a well-formed forest, where `parent.length` fuel suffices).
Returns the root together with the compressed parent vector. -/
def findSetAux : Nat → List Nat → Nat → Option (Nat × List Nat)
  | 0, _, _ => none
  | fuel + 1, p, i =>
    if p.getD i i = i then some (i, p)
    else
      match findSetAux fuel p (p.getD i i) with
      | none => none
      | some (r, p') => some (r, p'.set i r)

/-- `int UnionFind::find_set(int i)` (state-passing form). -/
def UnionFind.findSet (uf : UnionFind) (i : Nat) : Option (Nat × UnionFind) :=
  match findSetAux uf.parent.length uf.parent i with
  | none => none
  | some (r, p') => some (r, ⟨p', uf.rnk⟩)

/-- `void UnionFind::join(int i, int j)`: find both roots (with their
compression side effects), then link by rank. -/
def UnionFind.join (uf : UnionFind) (i j : Nat) : Option UnionFind :=
  match uf.findSet i with
  | none => none
  | some (ri, uf1) =>
    match uf1.findSet j with
    | none => none
    | some (rj, uf2) =>
      if uf2.rnk.getD rj 0 < uf2.rnk.getD ri 0 then
        some ⟨uf2.parent.set rj ri, uf2.rnk⟩
      else
        let p := uf2.parent.set ri rj
        if uf2.rnk.getD ri 0 = uf2.rnk.getD rj 0 then
          some ⟨p, uf2.rnk.set rj (uf2.rnk.getD rj 0 + 1)⟩
        else
          some ⟨p, uf2.rnk⟩

/-- The edge list built by `mst`: all pairs `i < j` in the order of the
double loop (`i` outer ascending, `j` inner ascending from `i+1`). -/
def edgeList (n : Nat) (c : Cost) : List Edge :=
  (List.range n).flatMap fun i =>
    (((List.range n).filter fun j => decide (i < j)).map fun j => ⟨i, j, c i j⟩)

/-- `sort(edges.begin(), edges.end())` with `operator<` comparing `cost`:
modelled as a stable sort by cost (one admissible `std::sort` execution). -/
def sortEdges (es : List Edge) : List Edge :=
  es.mergeSort fun a b => decide (a.cost ≤ b.cost)

/-- The Kruskal scan loop of `mst` (lines 76–85 of `tsp.cc`):
`for (int i = 0; size < n - 1; ++i)` over the sorted edge vector.  The
C++ loop indexes `edges[i]` with no bound check; running off the end of
the list is undefined behaviour, modelled as `none`. -/
def kruskalScan (n : Nat) : List Edge → UnionFind → Nat → List Edge → Option (List Edge)
  | es, uf, size, acc =>
    if n - 1 ≤ size then some acc
    else
      match es with
      | [] => none
      | e :: rest =>
        match uf.findSet e.head with
        | none => none
        | some (ru, uf1) =>
          match uf1.findSet e.tail with
          | none => none
          | some (rv, uf2) =>
            if ru ≠ rv then
              match uf2.join e.head e.tail with
              | none => none
              | some uf3 => kruskalScan n rest uf3 (size + 1) (acc ++ [e])
            else
              kruskalScan n rest uf2 size acc

/-- `vector<Edge> mst(int n, vector<vector<float>>& cost)`. -/
def mst (n : Nat) (c : Cost) : Option (List Edge) :=
  kruskalScan n (sortEdges (edgeList n c)) (ufInit n) 0 []

/-- One step of the adjacency-list construction (lines 99–104):
`adjacency_lists[u].push_back(v); adjacency_lists[v].push_back(u);`. -/
def adjStep (adj : List (List Nat)) (e : Edge) : List (List Nat) :=
  let a1 := adj.set e.head (adj.getD e.head [] ++ [e.tail])
  a1.set e.tail (a1.getD e.tail [] ++ [e.head])

/-- The per-vertex adjacency lists of the tree subgraph, built by the
loop at lines 99–104 (`push_back` order preserved). -/
def buildAdj (n : Nat) (tree : List Edge) : List (List Nat) :=
  tree.foldl adjStep (List.replicate n [])

/-- The traversal loop of `metric_tsp` (lines 116–127): pop the stack;
if the vertex is unvisited, record it and push its tree neighbours
(begin-to-end pushes put the reversed adjacency list on top).  Popping an
empty stack is undefined behaviour (`none`); fuel models the unbounded
`while`. -/
def dfsLoop (adj : List (List Nat)) (n : Nat) :
    Nat → List Bool → List Nat → List Nat → Option (List Nat)
  | 0, _, _, _ => none
  | fuel + 1, visited, stack, tour =>
    if n ≤ tour.length then some (tour ++ [0])
    else
      match stack with
      | [] => none
      | u :: rest =>
        if visited.getD u true then
          dfsLoop adj n fuel visited rest tour
        else
          dfsLoop adj n fuel (visited.set u true)
            ((adj.getD u []).reverse ++ rest) (tour ++ [u])

/-- `vector<int> metric_tsp(int n, vector<vector<float>>& cost)`. -/
def metricTsp (n : Nat) (c : Cost) : Option (List Nat) :=
  match mst n c with
  | none => none
  | some tree => dfsLoop (buildAdj n tree) n (2 * n + 2) (List.replicate n false) [0] []

/-! ## The exact solver `tsp` -/

/-- The `subset` vector computed at lines 141–144: the elements of the
bitmask `s` below `n`, ascending. -/
def subsetOf (n s : Nat) : List Nat :=
  (List.range n).filter fun u => s.testBit u

/-- Minimum of a list of rationals (the `FLT_MAX`-seeded strict-`<`
minimum scan of the C++ code computes exactly this whenever the list is
nonempty, which holds at every use site). -/
def listMin : List ℚ → ℚ
  | [] => 0
  | x :: xs => xs.foldl min x

/-- Read `opt[s][i]` from the table (out-of-range reads yield the
`vector<float>` zero initialization, exactly as in the program where
every cell starts `0.0f` and rows for even `s` or `i = 0` are never
written). -/
def getCell (tbl : List (List ℚ)) (s i : Nat) : ℚ :=
  (tbl.getD s []).getD i 0

/-- Write `opt[s][i] = v`. -/
def setCell (tbl : List (List ℚ)) (s i : Nat) (v : ℚ) : List (List ℚ) :=
  tbl.set s ((tbl.getD s []).set i v)

/-- One iteration of the inner DP loop body (lines 140–156) at subset `s`
and vertex `i`: note the candidate scan at line 152–154 runs over **all**
`j ∈ s` with `j ≠ i` — including `j = 0`. -/
def dpCell (c : Cost) (n : Nat) (s : Nat) (tbl : List (List ℚ)) (i : Nat) : List (List ℚ) :=
  let subset := subsetOf n s
  if subset.length = 2 then
    setCell tbl s i (c 0 i)
  else if 2 < subset.length then
    let t := if s.testBit i then s - 2 ^ i else s
    let cands := (subset.filter fun j => decide (j ≠ i)).map fun j => getCell tbl t j + c j i
    setCell tbl s i (listMin cands)
  else
    tbl

/-- The inner loop `for (int i = 1; i < n; ++i)` at a fixed subset `s`. -/
def dpRow (c : Cost) (n : Nat) (tbl : List (List ℚ)) (s : Nat) : List (List ℚ) :=
  (((List.range n).filter fun i => decide (1 ≤ i)).foldl (dpCell c n s) tbl)

/-- The DP table after the double loop at lines 139–157:
`for (long s = 1; s < nsub; s += 2)` over the zero-initialized
`2^n × n` table. -/
def dpTable (c : Cost) (n : Nat) : List (List ℚ) :=
  (((List.range (2 ^ n)).filter fun s => decide (s % 2 = 1)).foldl (dpRow c n)
    (List.replicate (2 ^ n) (List.replicate n 0)))

/-- One step of the candidate scan of the reconstruction loop (lines
172–176): skip selected `k`; otherwise take `k` if it strictly improves
the running minimum, which starts at the `FLT_MAX` sentinel (modelled as
`none`). -/
def bestKStep (c : Cost) (tbl : List (List ℚ)) (selected : List Bool) (s j : Nat) :
    Option (ℚ × Nat) → Nat → Option (ℚ × Nat)
  | none, k =>
    if selected.getD k true then none
    else some (getCell tbl s k + c k j, k)
  | some (m, bk), k =>
    if selected.getD k true then some (m, bk)
    else if getCell tbl s k + c k j < m then some (getCell tbl s k + c k j, k)
    else some (m, bk)

/-- The candidate scan of the reconstruction loop over `k = 0..n-1`;
a `none` result models `best_k` left uninitialized. -/
def bestK (c : Cost) (n : Nat) (tbl : List (List ℚ)) (selected : List Bool)
    (s j : Nat) : Option (ℚ × Nat) :=
  (List.range n).foldl (bestKStep c tbl selected s j) none

/-- The reconstruction loop of `tsp` (lines 168–180), running
`n - 1` iterations; `none` models the undefined behaviour of reading the
uninitialized `best_k` when no candidate was found. -/
def tspRecon (c : Cost) (n : Nat) (tbl : List (List ℚ)) :
    Nat → List Nat → List Bool → Nat → Option (List Nat)
  | 0, tour, _, _ => some (tour ++ [0])
  | iters + 1, tour, selected, s =>
    match bestK c n tbl selected s (tour.getLastD 0) with
    | none => none
    | some (_, bk) =>
      tspRecon c n tbl iters (tour ++ [bk]) (selected.set bk true) (s - 2 ^ bk)

/-- `vector<int> tsp(int n, vector<vector<float>>& cost)`. -/
def tsp (n : Nat) (c : Cost) : Option (List Nat) :=
  tspRecon c n (dpTable c n) (n - 1) [0] ((List.replicate n false).set 0 true)
    (2 ^ n - 1)

/-! ## Derived notions used by the claims -/

/-- Total cost of a tour, as computed by the driver: the sum of the costs
of consecutive pairs. -/
def tourCost (c : Cost) : List Nat → ℚ
  | u :: v :: rest => c u v + tourCost c (v :: rest)
  | _ => 0

/-- A valid Hamiltonian cycle for `n` vertices: length `n + 1`, starts
and ends at vertex `0`, and each vertex of `[0, n)` occurs exactly once
among the first `n` positions. -/
def IsTour (n : Nat) (t : List Nat) : Prop :=
  t.length = n + 1 ∧ t.headD 1 = 0 ∧ t.getLastD 1 = 0 ∧
    ∀ v < n, (t.take n).count v = 1

instance (n : Nat) (t : List Nat) : Decidable (IsTour n t) := by
  unfold IsTour; infer_instance

/-- Symmetry of a cost matrix on `[0, n)`. -/
def Symm (n : Nat) (c : Cost) : Prop :=
  ∀ i < n, ∀ j < n, c i j = c j i

/-- Non-negativity of a cost matrix on `[0, n)`. -/
def NonNeg (n : Nat) (c : Cost) : Prop :=
  ∀ i < n, ∀ j < n, 0 ≤ c i j

/-- The triangle inequality on `[0, n)`. -/
def Triangle (n : Nat) (c : Cost) : Prop :=
  ∀ i < n, ∀ j < n, ∀ k < n, c i k ≤ c i j + c j k

instance (n : Nat) (c : Cost) : Decidable (Symm n c) := by
  unfold Symm; infer_instance

instance (n : Nat) (c : Cost) : Decidable (NonNeg n c) := by
  unfold NonNeg; infer_instance

instance (n : Nat) (c : Cost) : Decidable (Triangle n c) := by
  unfold Triangle; infer_instance

/-- Build a cost matrix from a list of rows (out-of-range entries 0). -/
def matOf (rows : List (List ℚ)) : Cost :=
  fun i j => (rows.getD i []).getD j 0

/-- Total weight of a list of edges. -/
def treeWeight (es : List Edge) : ℚ :=
  (es.map Edge.cost).sum

/-! ## Semantic notions for the union-find forest -/

/-- One parent-pointer step (out-of-range indices are their own parent,
matching `getD`). -/
def ufStep (p : List Nat) (i : Nat) : Nat := p.getD i i

/-- All in-range parent pointers stay in range. -/
def Bounded (p : List Nat) : Prop :=
  ∀ i, i < p.length → ufStep p i < p.length

/-- The only cycles of the parent relation are the self-loops at roots:
the parent chain from any element reaches a root. -/
def NoCycle (p : List Nat) : Prop :=
  ∀ x k, 1 ≤ k → (ufStep p)^[k] x = x → ufStep p x = x

/-- The forest invariant of a parent vector. -/
def WFp (p : List Nat) : Prop := Bounded p ∧ NoCycle p

/-- The forest invariant of a `UnionFind` value. -/
def UnionFind.WF (uf : UnionFind) : Prop := WFp uf.parent

/-- The canonical root of `i`: under the forest invariant, following
parent pointers `p.length` times always lands on the root. -/
def rootD (p : List Nat) (i : Nat) : Nat := (ufStep p)^[p.length] i

/-! ## Graph-theoretic notions used to specify the spanning tree -/

/-- The one-edge relation of an edge list, read undirectedly. -/
def edgeRel (T : List Edge) (x y : Nat) : Prop :=
  ∃ e ∈ T, (e.head = x ∧ e.tail = y) ∨ (e.head = y ∧ e.tail = x)

/-- Connectivity by edges of `T`. -/
def Reach (T : List Edge) : Nat → Nat → Prop :=
  Relation.EqvGen (edgeRel T)

/-- Forests as built edge by edge: each added edge joins two vertices
that were not yet connected (equivalently, the edge set is acyclic). -/
inductive IsForest : List Edge → Prop
  | nil : IsForest []
  | snoc (T : List Edge) (e : Edge) (hT : IsForest T)
      (hnew : ¬ Reach T e.head e.tail) : IsForest (T ++ [e])

/-- `T` connects all `n` vertices. -/
def Spans (n : Nat) (T : List Edge) : Prop :=
  ∀ x, x < n → ∀ y, y < n → Reach T x y

/-- Edges of the complete weighted graph on `[0, n)` with costs `c`. -/
def ValidEdges (n : Nat) (c : Cost) (T : List Edge) : Prop :=
  ∀ e ∈ T, e.head < n ∧ e.tail < n ∧ e.cost = c e.head e.tail

/-- A spanning tree of the complete weighted graph on `[0, n)`. -/
def SpanningTree (n : Nat) (c : Cost) (T : List Edge) : Prop :=
  ValidEdges n c T ∧ IsForest T ∧ Spans n T

/-- The partition of `[0, n)` into connected components of `T`. -/
def reachSetoid (n : Nat) (T : List Edge) : Setoid (Fin n) :=
  Setoid.comap Fin.val (Relation.EqvGen.setoid (edgeRel T))

/-- The number of connected components of `T` on the vertex set `[0, n)`
(a specification-side notion only, used to state the counting argument). -/
noncomputable def numComponents (n : Nat) (T : List Edge) : Nat :=
  Nat.card (Quotient (reachSetoid n T))

/-- Total length of the adjacency lists of the first `n` vertices. -/
def adjDegSum (n : Nat) (adj : List (List Nat)) : Nat :=
  (((List.range n).map fun v => (adj.getD v []).length)).sum

/-- Total length of the adjacency lists of the unvisited vertices:
the potential that bounds the remaining work of the traversal loop. -/
def unvisitedDeg (n : Nat) (adj : List (List Nat)) (visited : List Bool) : Nat :=
  ((((List.range n).filter fun v => !(visited.getD v false)).map
    fun v => (adj.getD v []).length)).sum

/-- The Held-Karp recurrence value, written from the specification text:
base case `|s| = 2` (i.e. `s = {0, i}`): `cost[0][i]`; for `|s| > 2`:
the minimum over `j ∈ s`, `j ≠ i`, `j ≠ 0` of
`DPTable[s ∖ {i}][j] + cost[j][i]`.  Recursion by fuel (the subset
shrinks by one vertex per step, so fuel `n` suffices). -/
def specHK (c : Cost) (n : Nat) : Nat → Nat → Nat → ℚ
  | 0, _, _ => 0
  | fuel + 1, s, i =>
    let sub := subsetOf n s
    if sub.length = 2 then c 0 i
    else
      listMin ((sub.filter fun j => decide (j ≠ i) && decide (j ≠ 0)).map
        fun j => specHK c n fuel (s - 2 ^ i) j + c j i)

/-- The demonstration matrix of `main` (lines 194–199). -/
def demoMat : Cost := matOf [[0,1,3,2],[1,0,2,4],[3,2,0,3],[2,4,3,0]]

/-- A symmetric, non-negative 4-vertex matrix on which the exact solver
mis-answers: `c[0][1]=3, c[0][2]=6, c[0][3]=3, c[1][2]=3, c[1][3]=5,
c[2][3]=3`. -/
def failMat : Cost := matOf [[0,3,6,3],[3,0,3,5],[6,3,0,3],[3,5,3,0]]

/-- The total cost of the tree edges whose two endpoints are both
already visited (the edges already "paid for" by the traversal). -/
def chargedW (K : List Edge) (visited : List Bool) : ℚ :=
  ((K.filter fun e =>
    visited.getD e.head false && visited.getD e.tail false).map Edge.cost).sum

/-- The ghost anchoring of a traversal stack to the return path `P` of
the current vertex: each stack entry was pushed by a tree neighbour
(its anchor) that heads some suffix of `P`, and entries deeper in the
stack are anchored on successively shorter suffixes. -/
inductive Anch (K : List Edge) : List Nat → List Nat → Prop
  | nil (P : List Nat) : Anch K [] P
  | cons (v : Nat) (rest P Q : List Nat) (hQ : Q <:+ P) (hne : Q ≠ [])
      (hrel : edgeRel K (Q.headD 0) v) (hrest : Anch K rest Q) :
      Anch K (v :: rest) P

/-- The edges traced by the consecutive pairs of a vertex sequence,
with honest costs from `c`. -/
def pathEdges (c : Cost) : List Nat → List Edge
  | u :: v :: rest => ⟨u, v, c u v⟩ :: pathEdges c (v :: rest)
  | _ => []

end Tsp

namespace Tsp

/-! ## Claims settled by concrete computation -/

/-- C1: refuted on the code.  On the symmetric, finite, non-negative
4-vertex matrix `failMat`, `tsp` returns the tour `[0,1,3,2,0]` of total
cost `17`, while the Hamiltonian cycle `[0,1,2,3,0]` over the same
matrix costs `12 < 17` — so the returned cost is *not* minimal over all
Hamiltonian cycles. -/
theorem c1_tsp_suboptimal :
    Symm 4 failMat ∧ NonNeg 4 failMat ∧
    tsp 4 failMat = some [0, 1, 3, 2, 0] ∧
    IsTour 4 [0, 1, 3, 2, 0] ∧
    tourCost failMat [0, 1, 3, 2, 0] = 17 ∧
    IsTour 4 [0, 1, 2, 3, 0] ∧
    tourCost failMat [0, 1, 2, 3, 0] = 12 := by
  with_unfolding_all decide

/-- C4: refuted on the code.  At subset `s = 7 = {0,1,2}` (so `|s| = 3 >
2`) and `i = 1`, the DP table built by the code holds
`cost[0][1] = 3` (the inner scan at line 152–154 also admits `j = 0`,
whose cell `opt[s∖{i}][0]` still carries its zero initialization), while
the recurrence stated by the specification — minimum over `j ∈ s`,
`j ≠ i`, `j ≠ 0` — gives `9`. -/
theorem c4_recurrence_violated :
    (subsetOf 4 7).length = 3 ∧ Nat.testBit 7 0 = true ∧ Nat.testBit 7 1 = true ∧
    getCell (dpTable failMat 4) 7 1 = 3 ∧
    specHK failMat 4 4 7 1 = 9 ∧
    getCell (dpTable failMat 4) 7 1 ≠ specHK failMat 4 4 7 1 := by
  with_unfolding_all decide

/-- C5 (counterexample): on the demonstration matrix the approximate
solver returns the tour `[0,3,1,2,0]`, whose total cost is `11`, not `8`
as the claim states. -/
theorem c5_metric_cost_not_eight :
    ¬ ∃ t, metricTsp 4 demoMat = some t ∧ tourCost demoMat t = 8 := by
  with_unfolding_all decide

/-- C5 (amended): on the demonstration matrix, `mst` returns the edges
`{(0,1,1),(0,3,2),(1,2,2)}` of total weight `5`; `tsp` returns a tour of
total cost `8`; `metric_tsp` returns a tour of total cost `11`, which is
at most `16`. -/
theorem c5_demo_scenario :
    mst 4 demoMat = some [⟨0, 1, 1⟩, ⟨0, 3, 2⟩, ⟨1, 2, 2⟩] ∧
    ([⟨0, 1, 1⟩, ⟨0, 3, 2⟩, ⟨1, 2, 2⟩] : List Edge).Perm
      [⟨0, 1, 1⟩, ⟨1, 2, 2⟩, ⟨0, 3, 2⟩] ∧
    treeWeight [⟨0, 1, 1⟩, ⟨0, 3, 2⟩, ⟨1, 2, 2⟩] = 5 ∧
    tsp 4 demoMat = some [0, 1, 2, 3, 0] ∧
    tourCost demoMat [0, 1, 2, 3, 0] = 8 ∧
    metricTsp 4 demoMat = some [0, 3, 1, 2, 0] ∧
    tourCost demoMat [0, 3, 1, 2, 0] = 11 ∧
    tourCost demoMat [0, 3, 1, 2, 0] ≤ 16 := by
  with_unfolding_all decide

/-- C7: refuted on the code.  Running the Kruskal scan loop on an edge
list that cannot connect all vertices (here `n = 3` with the single edge
`(1,2)`, vertex `0` unreachable) exhausts the edge list and performs an
out-of-bounds read of `edges[i]` (modelled by `none`): no
`InvalidInputError` is reported. -/
theorem c7_disconnected_scan_overruns :
    kruskalScan 3 [⟨1, 2, 0⟩] (ufInit 3) 0 [] = none := by
  with_unfolding_all decide

/-- C9: for `n = 1` and any cost matrix with `cost[0][0] = 0`, both
solvers return the trivial tour `[0, 0]` of total cost `0` (the DP loop
and the reconstruction loop of `tsp` execute no effective iterations, and
the spanning tree in `metric_tsp` is empty). -/
theorem c9_single_vertex (c : Cost) (h : c 0 0 = 0) :
    tsp 1 c = some [0, 0] ∧ metricTsp 1 c = some [0, 0] ∧
      tourCost c [0, 0] = 0 := by
  refine ⟨rfl, by with_unfolding_all rfl, ?_⟩
  simp [tourCost, h]

/-- C9 witness: the single valid `1 × 1` matrix. -/
theorem c9_single_vertex_witness :
    matOf [[0]] 0 0 = 0 ∧
      (tsp 1 (matOf [[0]]) = some [0, 0] ∧ metricTsp 1 (matOf [[0]]) = some [0, 0] ∧
        tourCost (matOf [[0]]) [0, 0] = 0) :=
  ⟨by with_unfolding_all decide, c9_single_vertex (matOf [[0]]) (by with_unfolding_all decide)⟩

end Tsp



namespace Tsp

/-! ## C8: the reconstruction scan always finds a candidate -/

lemma bestKStep_isSome (c : Cost) (tbl : List (List ℚ)) (selected : List Bool)
    (s j : Nat) (acc : Option (ℚ × Nat)) (k : Nat) (h : acc.isSome = true) :
    (bestKStep c tbl selected s j acc k).isSome = true := by
  cases acc with
  | none => simp at h
  | some p =>
    obtain ⟨m, bk⟩ := p
    rw [bestKStep]
    split
    · rfl
    · split <;> rfl

lemma bestKStep_isSome_of_unselected (c : Cost) (tbl : List (List ℚ))
    (selected : List Bool) (s j : Nat) (acc : Option (ℚ × Nat)) (k : Nat)
    (h : selected.getD k true = false) :
    (bestKStep c tbl selected s j acc k).isSome = true := by
  cases acc with
  | none =>
    rw [bestKStep, if_neg (by rw [h]; exact Bool.false_ne_true)]
    rfl
  | some p =>
    obtain ⟨m, bk⟩ := p
    rw [bestKStep]
    split
    · rfl
    · split <;> rfl

lemma foldl_bestKStep_isSome (c : Cost) (tbl : List (List ℚ)) (selected : List Bool)
    (s j : Nat) :
    ∀ (l : List Nat) (acc : Option (ℚ × Nat)), acc.isSome = true →
      (l.foldl (bestKStep c tbl selected s j) acc).isSome = true := by
  intro l
  induction l with
  | nil => intro acc h; exact h
  | cons k t ih =>
    intro acc h
    rw [List.foldl_cons]
    exact ih _ (bestKStep_isSome c tbl selected s j acc k h)

lemma bestK_isSome (c : Cost) (n : Nat) (tbl : List (List ℚ)) (selected : List Bool)
    (s j k : Nat) (hk : k < n) (hsel : selected.getD k true = false) :
    (bestK c n tbl selected s j).isSome = true := by
  unfold bestK
  obtain ⟨l1, l2, hsplit⟩ := List.append_of_mem (List.mem_range.mpr hk)
  rw [hsplit, List.foldl_append, List.foldl_cons]
  exact foldl_bestKStep_isSome c tbl selected s j l2 _
    (bestKStep_isSome_of_unselected c tbl selected s j _ k hsel)

lemma foldl_bestKStep_spec (c : Cost) (n : Nat) (tbl : List (List ℚ))
    (selected : List Bool) (s j : Nat) :
    ∀ (l : List Nat) (acc : Option (ℚ × Nat)),
      (∀ x ∈ l, x < n) →
      (∀ m bk, acc = some (m, bk) → bk < n ∧ selected.getD bk true = false) →
      ∀ m bk, l.foldl (bestKStep c tbl selected s j) acc = some (m, bk) →
        bk < n ∧ selected.getD bk true = false := by
  intro l
  induction l with
  | nil => intro acc _ hacc m bk h; exact hacc m bk h
  | cons x t ih =>
    intro acc hl hacc m bk h
    rw [List.foldl_cons] at h
    refine ih _ (fun y hy => hl y (List.mem_cons_of_mem _ hy)) ?_ m bk h
    intro m' bk' hstep
    have hx : x < n := hl x (List.mem_cons_self x t)
    cases acc with
    | none =>
      rw [bestKStep] at hstep
      split at hstep
      · cases hstep
      · cases hstep
        refine ⟨hx, ?_⟩
        rename_i hcond
        cases hv : selected.getD x true with
        | false => rfl
        | true => exact absurd hv hcond
    | some p =>
      obtain ⟨m0, b0⟩ := p
      rw [bestKStep] at hstep
      split at hstep
      · exact hacc _ _ hstep
      · rename_i hcond
        have hsel : selected.getD x true = false := by
          cases hv : selected.getD x true with
          | false => rfl
          | true => exact absurd hv hcond
        split at hstep
        · cases hstep; exact ⟨hx, hsel⟩
        · cases hstep; exact hacc _ _ rfl

lemma bestK_mem (c : Cost) (n : Nat) (tbl : List (List ℚ)) (selected : List Bool)
    (s j : Nat) (m : ℚ) (bk : Nat)
    (h : bestK c n tbl selected s j = some (m, bk)) :
    bk < n ∧ selected.getD bk true = false :=
  foldl_bestKStep_spec c n tbl selected s j (List.range n) none
    (fun x hx => List.mem_range.mp hx) (fun _ _ h' => by cases h') m bk h

lemma count_false_set_true :
    ∀ (l : List Bool) (k : Nat), l.getD k true = false →
      (l.set k true).count false + 1 = l.count false := by
  intro l
  induction l with
  | nil => intro k h; simp at h
  | cons b t ih =>
    intro k h
    cases k with
    | zero =>
      simp only [List.getD_cons_zero] at h
      subst h
      simp [List.count_cons]
    | succ k =>
      have hh := ih k (by simpa using h)
      cases b <;> simp [List.count_cons] <;> omega

lemma exists_unselected_of_count (selected : List Bool)
    (h : 0 < selected.count false) :
    ∃ k, k < selected.length ∧ selected.getD k true = false := by
  have hmem : false ∈ selected := List.count_pos_iff.mp h
  obtain ⟨k, hk, hval⟩ := List.mem_iff_getElem.mp hmem
  exact ⟨k, hk, by rw [List.getD_eq_getElem selected true hk, hval]⟩

lemma tspRecon_isSome (c : Cost) (n : Nat) (tbl : List (List ℚ)) :
    ∀ (iters : Nat) (tour : List Nat) (selected : List Bool) (s : Nat),
      selected.length = n → iters ≤ selected.count false →
      (tspRecon c n tbl iters tour selected s).isSome = true := by
  intro iters
  induction iters with
  | zero => intro tour selected s _ _; rfl
  | succ it ih =>
    intro tour selected s hlen hcount
    obtain ⟨k, hk, hkf⟩ := exists_unselected_of_count selected (by omega)
    have hsome := bestK_isSome c n tbl selected s (tour.getLastD 0) k
      (by omega) hkf
    rw [tspRecon]
    cases hbk : bestK c n tbl selected s (tour.getLastD 0) with
    | none => rw [hbk] at hsome; cases hsome
    | some p =>
      obtain ⟨m, bk⟩ := p
      obtain ⟨hbkn, hbkf⟩ := bestK_mem c n tbl selected s (tour.getLastD 0) m bk hbk
      dsimp only
      apply ih
      · simpa using hlen
      · have hcnt := count_false_set_true selected bk hbkf
        omega

/-- C8: for every `n ≥ 1` and every cost matrix, each of the `n - 1`
reconstruction iterations of `tsp` finds at least one unselected
candidate `k` (every DP value is finite in the model), so `best_k` is
assigned before being used and the error branch — modelled as `none` —
is never taken: the reconstruction always produces a tour. -/
theorem c8_reconstruction_total (n : Nat) (hn : 1 ≤ n) (c : Cost) :
    (tsp n c).isSome = true := by
  unfold tsp
  apply tspRecon_isSome
  · simp
  · have h0 : (List.replicate n false).getD 0 true = false := by
      cases n with
      | zero => omega
      | succ m => simp
    have hset := count_false_set_true (List.replicate n false) 0 h0
    rw [List.count_replicate_self] at hset
    omega

/-- C8 witness: a concrete 2-vertex instance. -/
theorem c8_reconstruction_total_witness :
    1 ≤ 2 ∧ (tsp 2 (matOf [[0, 5], [5, 0]])).isSome = true :=
  ⟨by decide, c8_reconstruction_total 2 (by decide) (matOf [[0, 5], [5, 0]])⟩

end Tsp

namespace Tsp

/-! ## Union-find: the forest invariant and the behaviour of the operations -/

lemma getD_of_le {α : Type} (l : List α) (i : Nat) (d : α) (h : l.length ≤ i) :
    l.getD i d = d := by
  rw [List.getD_eq_getElem?_getD, List.getElem?_eq_none h]
  rfl

lemma getD_of_lt {α : Type} (l : List α) (i : Nat) (d : α) (h : i < l.length) :
    l.getD i d = l[i] := by
  rw [List.getD_eq_getElem?_getD, List.getElem?_eq_getElem h]
  rfl

lemma getD_set_self {α : Type} (l : List α) (i : Nat) (d x : α)
    (h : i < l.length) : (l.set i x).getD i d = x := by
  rw [getD_of_lt _ _ _ (by simpa using h), List.getElem_set]
  simp

lemma getD_set_ne {α : Type} (l : List α) (i j : Nat) (d x : α) (hij : i ≠ j) :
    (l.set i x).getD j d = l.getD j d := by
  by_cases hlt : j < l.length
  · rw [getD_of_lt _ _ _ (by simpa using hlt), getD_of_lt _ _ _ hlt,
      List.getElem_set, if_neg hij]
  · rw [getD_of_le _ _ _ (by simpa using hlt), getD_of_le _ _ _ (by omega)]

lemma ufStep_of_le (p : List Nat) (i : Nat) (h : p.length ≤ i) : ufStep p i = i :=
  getD_of_le p i i h

lemma ufStep_lt_of_not_fix (p : List Nat) (i : Nat) (h : ufStep p i ≠ i) :
    i < p.length := by
  by_contra hle
  exact h (ufStep_of_le p i (by omega))

lemma ufStep_set_self (p : List Nat) (i r : Nat) (hi : i < p.length) :
    ufStep (p.set i r) i = r := by
  unfold ufStep
  rw [getD_of_lt _ _ _ (by simpa using hi), List.getElem_set]
  simp

lemma ufStep_set_ne (p : List Nat) (i r y : Nat) (hy : y ≠ i) :
    ufStep (p.set i r) y = ufStep p y := by
  unfold ufStep
  by_cases hlt : y < p.length
  · rw [getD_of_lt _ _ _ (by simpa using hlt), getD_of_lt _ _ _ hlt,
      List.getElem_set, if_neg (by omega)]
  · rw [getD_of_le _ _ _ (by simpa using hlt), getD_of_le _ _ _ (by omega)]

lemma iterate_lt (p : List Nat) (hB : Bounded p) (i : Nat) (hi : i < p.length) :
    ∀ a, (ufStep p)^[a] i < p.length := by
  intro a
  induction a with
  | zero => exact hi
  | succ a ih => rw [Function.iterate_succ_apply']; exact hB _ ih

lemma root_reached (p : List Nat) (hB : Bounded p) (hN : NoCycle p) (i : Nat)
    (hi : i < p.length) :
    ∃ a, a < p.length ∧ ufStep p ((ufStep p)^[a] i) = (ufStep p)^[a] i := by
  have key : ∀ a b : Nat, a < b → b ≤ p.length →
      (ufStep p)^[a] i = (ufStep p)^[b] i →
      ufStep p ((ufStep p)^[a] i) = (ufStep p)^[a] i := by
    intro a b hab hb heq
    have hcyc : (ufStep p)^[b - a] ((ufStep p)^[a] i) = (ufStep p)^[a] i := by
      rw [← Function.iterate_add_apply, Nat.sub_add_cancel (le_of_lt hab)]
      exact heq.symm
    exact hN _ (b - a) (by omega) hcyc
  obtain ⟨x, y, hxy, hfeq⟩ := Fintype.exists_ne_map_eq_of_card_lt
    (fun a : Fin (p.length + 1) =>
      (⟨(ufStep p)^[a.1] i, iterate_lt p hB i hi a.1⟩ : Fin p.length))
    (by simp)
  have hval : (ufStep p)^[x.1] i = (ufStep p)^[y.1] i := by
    have := congrArg Fin.val hfeq
    simpa using this
  rcases Nat.lt_or_ge x.1 y.1 with hlt | hge
  · exact ⟨x.1, by omega, key x.1 y.1 hlt (by omega) hval⟩
  · have hlt : y.1 < x.1 := by
      rcases Nat.lt_or_ge y.1 x.1 with h | h
      · exact h
      · exact absurd (Fin.val_injective (by omega)) hxy
    exact ⟨y.1, by omega, key y.1 x.1 hlt (by omega) hval.symm⟩

lemma rootD_of_root (p : List Nat) (i : Nat) (h : ufStep p i = i) : rootD p i = i :=
  Function.iterate_fixed h p.length

lemma rootD_isRoot (p : List Nat) (hB : Bounded p) (hN : NoCycle p) (i : Nat) :
    ufStep p (rootD p i) = rootD p i := by
  by_cases hi : i < p.length
  · obtain ⟨a, ha, hroot⟩ := root_reached p hB hN i hi
    have hstable : rootD p i = (ufStep p)^[a] i := by
      unfold rootD
      rw [show p.length = (p.length - a) + a by omega, Function.iterate_add_apply]
      exact Function.iterate_fixed hroot (p.length - a)
    rw [hstable]
    exact hroot
  · have hstep : ufStep p i = i := ufStep_of_le p i (by omega)
    rw [rootD_of_root p i hstep]
    exact hstep

lemma rootD_step (p : List Nat) (hB : Bounded p) (hN : NoCycle p) (i : Nat) :
    rootD p (ufStep p i) = rootD p i := by
  show (ufStep p)^[p.length] (ufStep p i) = rootD p i
  rw [← Function.iterate_succ_apply, Function.iterate_succ_apply']
  exact rootD_isRoot p hB hN i

lemma rootD_lt (p : List Nat) (hB : Bounded p) (i : Nat) (hi : i < p.length) :
    rootD p i < p.length :=
  iterate_lt p hB i hi p.length

lemma rootD_rootD (p : List Nat) (hB : Bounded p) (hN : NoCycle p) (i : Nat) :
    rootD p (rootD p i) = rootD p i :=
  rootD_of_root p _ (rootD_isRoot p hB hN i)

lemma root_of_rootD_self (p : List Nat) (hN : NoCycle p) (hlen : 1 ≤ p.length)
    (x : Nat) (h : rootD p x = x) : ufStep p x = x :=
  hN x p.length hlen h

lemma findSetAux_isSome_of_reach :
    ∀ (fuel : Nat) (p : List Nat) (i a : Nat), a < fuel →
      ufStep p ((ufStep p)^[a] i) = (ufStep p)^[a] i →
      (findSetAux fuel p i).isSome = true := by
  intro fuel
  induction fuel with
  | zero => intro p i a ha _; exact absurd ha (Nat.not_lt_zero a)
  | succ fuel ih =>
    intro p i a ha hroot
    rw [findSetAux]
    by_cases hri : p.getD i i = i
    · rw [if_pos hri]; rfl
    · rw [if_neg hri]
      have ha1 : 1 ≤ a := by
        by_contra h0
        have haz : a = 0 := by omega
        subst haz
        simp only [Function.iterate_zero_apply] at hroot
        exact hri hroot
      have hrec := ih p (p.getD i i) (a - 1) (by omega) ?_
      · cases hfs : findSetAux fuel p (p.getD i i) with
        | none => rw [hfs] at hrec; cases hrec
        | some pr => obtain ⟨r, p0⟩ := pr; rfl
      · show ufStep p ((ufStep p)^[a - 1] (ufStep p i)) = (ufStep p)^[a - 1] (ufStep p i)
        have heq : (ufStep p)^[a - 1] (ufStep p i) = (ufStep p)^[a] i := by
          rw [← Function.iterate_succ_apply]
          congr 1
          omega
        rw [heq]
        exact hroot

end Tsp

namespace Tsp

lemma bounded_set (p : List Nat) (i r : Nat) (hB : Bounded p) (hr : r < p.length) :
    Bounded (p.set i r) := by
  intro x hx
  rw [List.length_set] at hx
  rw [List.length_set]
  by_cases hxi : x = i
  · subst hxi
    rw [ufStep_set_self p x r hx]
    exact hr
  · rw [ufStep_set_ne p i r x hxi]
    exact hB x hx

lemma noCycle_set (p : List Nat) (i r : Nat) (hN : NoCycle p) (hi : i < p.length)
    (hri : r ≠ i) (hroot : ufStep (p.set i r) r = r) : NoCycle (p.set i r) := by
  intro x k hk hcyc
  by_cases hnoi : ∀ a, a < k → (ufStep (p.set i r))^[a] x ≠ i
  · have hmirror : ∀ a, a ≤ k → (ufStep (p.set i r))^[a] x = (ufStep p)^[a] x := by
      intro a ha
      induction a with
      | zero => rfl
      | succ a iha =>
        rw [Function.iterate_succ_apply', Function.iterate_succ_apply',
          iha (by omega), ← iha (by omega), ufStep_set_ne p i r _ (hnoi a (by omega)),
          iha (by omega)]
    have hcyc' : (ufStep p)^[k] x = x := by
      rw [← hmirror k le_rfl]
      exact hcyc
    have hxroot := hN x k hk hcyc'
    have hxi : x ≠ i := by
      have := hnoi 0 (by omega)
      simpa using this
    rw [ufStep_set_ne p i r x hxi]
    exact hxroot
  · push_neg at hnoi
    obtain ⟨a, hak, ha⟩ := hnoi
    have hfix : ∀ m, a + 1 ≤ m → (ufStep (p.set i r))^[m] x = r := by
      intro m hm
      have h1 : (ufStep (p.set i r))^[a + 1] x = r := by
        rw [Function.iterate_succ_apply', ha, ufStep_set_self p i r hi]
      calc (ufStep (p.set i r))^[m] x
          = (ufStep (p.set i r))^[(m - (a + 1)) + (a + 1)] x := by congr 1; omega
        _ = (ufStep (p.set i r))^[m - (a + 1)] ((ufStep (p.set i r))^[a + 1] x) :=
            Function.iterate_add_apply _ _ _ _
        _ = (ufStep (p.set i r))^[m - (a + 1)] r := by rw [h1]
        _ = r := Function.iterate_fixed hroot _
    have hxr : x = r := by
      have hcycmul : (ufStep (p.set i r))^[(a + 1) * k] x = x := by
        rw [show (a + 1) * k = k * (a + 1) from Nat.mul_comm _ _,
          Function.iterate_mul]
        exact Function.iterate_fixed hcyc (a + 1)
      have hle : a + 1 ≤ (a + 1) * k := Nat.le_mul_of_pos_right _ (by omega)
      exact hcycmul.symm.trans (hfix _ hle)
    rw [hxr]
    exact hroot

lemma set_self_eq (l : List Nat) (i : Nat) (h : l.getD i i = i) : l.set i i = l := by
  by_cases hi : i < l.length
  · apply List.ext_getElem (by simp)
    intro n h1 h2
    rw [List.getElem_set]
    split
    · rename_i hin
      subst hin
      rw [getD_of_lt l i i hi] at h
      exact h.symm
    · rfl
  · rw [List.set_eq_of_length_le (by omega)]

lemma rootD_set_to_root (p : List Nat) (i : Nat) (hB : Bounded p) (hN : NoCycle p)
    (hnotroot : ufStep p i ≠ i) :
    WFp (p.set i (rootD p i)) ∧ ∀ x, rootD (p.set i (rootD p i)) x = rootD p x := by
  have hi : i < p.length := ufStep_lt_of_not_fix p i hnotroot
  have hlen1 : 1 ≤ p.length := by omega
  have hrlt : rootD p i < p.length := rootD_lt p hB i hi
  have hrroot : ufStep p (rootD p i) = rootD p i := rootD_isRoot p hB hN i
  have hri : rootD p i ≠ i := by
    intro heq
    exact hnotroot (root_of_rootD_self p hN hlen1 i heq)
  have hroot' : ufStep (p.set i (rootD p i)) (rootD p i) = rootD p i := by
    rw [ufStep_set_ne p i _ _ hri]
    exact hrroot
  have hB' : Bounded (p.set i (rootD p i)) := bounded_set p i _ hB hrlt
  have hN' : NoCycle (p.set i (rootD p i)) := noCycle_set p i _ hN hi hri hroot'
  refine ⟨⟨hB', hN'⟩, ?_⟩
  have aux : ∀ a x, ufStep p ((ufStep p)^[a] x) = (ufStep p)^[a] x →
      rootD (p.set i (rootD p i)) x = rootD p x := by
    intro a
    induction a with
    | zero =>
      intro x hx
      simp only [Function.iterate_zero_apply] at hx
      have hxi : x ≠ i := fun h => hnotroot (h ▸ hx)
      rw [rootD_of_root p x hx, rootD_of_root _ x (by rw [ufStep_set_ne p i _ x hxi]; exact hx)]
    | succ a iha =>
      intro x hx
      by_cases hxroot : ufStep p x = x
      · have hxi : x ≠ i := fun h => hnotroot (h ▸ hxroot)
        rw [rootD_of_root p x hxroot,
          rootD_of_root _ x (by rw [ufStep_set_ne p i _ x hxi]; exact hxroot)]
      · by_cases hxi : x = i
        · subst hxi
          have h1 : rootD (p.set x (rootD p x)) x =
              rootD (p.set x (rootD p x)) (rootD p x) := by
            conv_lhs => rw [← rootD_step _ hB' hN' x, ufStep_set_self p x _ hi]
          rw [h1, rootD_of_root _ _ hroot']
        · have h1 := iha (ufStep p x) (by rw [← Function.iterate_succ_apply]; exact hx)
          calc rootD (p.set i (rootD p i)) x
              = rootD (p.set i (rootD p i)) (ufStep (p.set i (rootD p i)) x) :=
                (rootD_step _ hB' hN' x).symm
            _ = rootD (p.set i (rootD p i)) (ufStep p x) := by
                rw [ufStep_set_ne p i _ x hxi]
            _ = rootD p (ufStep p x) := h1
            _ = rootD p x := rootD_step p hB hN x
  intro x
  exact aux p.length x (rootD_isRoot p hB hN x)

lemma rootD_set_root_to_root (p : List Nat) (a b : Nat) (hB : Bounded p)
    (hN : NoCycle p) (ha : ufStep p a = a) (hb : ufStep p b = b) (hab : a ≠ b)
    (haL : a < p.length) (hbL : b < p.length) :
    WFp (p.set a b) ∧
      ∀ x, rootD (p.set a b) x = if rootD p x = a then b else rootD p x := by
  have hbroot' : ufStep (p.set a b) b = b := by
    rw [ufStep_set_ne p a b b (Ne.symm hab)]
    exact hb
  have hB' : Bounded (p.set a b) := bounded_set p a b hB hbL
  have hN' : NoCycle (p.set a b) := noCycle_set p a b hN haL (Ne.symm hab) hbroot'
  refine ⟨⟨hB', hN'⟩, ?_⟩
  have aux : ∀ m x, ufStep p ((ufStep p)^[m] x) = (ufStep p)^[m] x →
      rootD (p.set a b) x = if rootD p x = a then b else rootD p x := by
    intro m
    induction m with
    | zero =>
      intro x hx
      simp only [Function.iterate_zero_apply] at hx
      rw [rootD_of_root p x hx]
      by_cases hxa : x = a
      · subst hxa
        rw [if_pos rfl]
        have h1 : rootD (p.set x b) x = rootD (p.set x b) b := by
          conv_lhs => rw [← rootD_step _ hB' hN' x, ufStep_set_self p x b haL]
        rw [h1, rootD_of_root _ _ hbroot']
      · rw [if_neg hxa,
          rootD_of_root _ x (by rw [ufStep_set_ne p a b x hxa]; exact hx)]
    | succ m ihm =>
      intro x hx
      by_cases hxroot : ufStep p x = x
      · rw [rootD_of_root p x hxroot]
        by_cases hxa : x = a
        · subst hxa
          rw [if_pos rfl]
          have h1 : rootD (p.set x b) x = rootD (p.set x b) b := by
            conv_lhs => rw [← rootD_step _ hB' hN' x, ufStep_set_self p x b haL]
          rw [h1, rootD_of_root _ _ hbroot']
        · rw [if_neg hxa,
            rootD_of_root _ x (by rw [ufStep_set_ne p a b x hxa]; exact hxroot)]
      · have hxa : x ≠ a := fun h => hxroot (h ▸ ha)
        have h1 := ihm (ufStep p x) (by rw [← Function.iterate_succ_apply]; exact hx)
        calc rootD (p.set a b) x
            = rootD (p.set a b) (ufStep (p.set a b) x) := (rootD_step _ hB' hN' x).symm
          _ = rootD (p.set a b) (ufStep p x) := by rw [ufStep_set_ne p a b x hxa]
          _ = if rootD p (ufStep p x) = a then b else rootD p (ufStep p x) := h1
          _ = if rootD p x = a then b else rootD p x := by rw [rootD_step p hB hN x]
  intro x
  exact aux p.length x (rootD_isRoot p hB hN x)

end Tsp

namespace Tsp

lemma findSetAux_spec :
    ∀ (fuel : Nat) (p : List Nat) (i r : Nat) (p' : List Nat),
      Bounded p → NoCycle p →
      findSetAux fuel p i = some (r, p') →
      r = rootD p i ∧ p'.length = p.length ∧ WFp p' ∧
        ∀ x, rootD p' x = rootD p x := by
  intro fuel
  induction fuel with
  | zero => intro p i r p' _ _ h; cases h
  | succ fuel ih =>
    intro p i r p' hB hN h
    rw [findSetAux] at h
    by_cases hroot : p.getD i i = i
    · rw [if_pos hroot] at h
      cases h
      exact ⟨(rootD_of_root p i hroot).symm, rfl, ⟨hB, hN⟩, fun _ => rfl⟩
    · rw [if_neg hroot] at h
      cases hrec : findSetAux fuel p (p.getD i i) with
      | none => rw [hrec] at h; cases h
      | some pr =>
        obtain ⟨r0, p0⟩ := pr
        rw [hrec] at h
        obtain ⟨hr0, hlen0, ⟨hB0, hN0⟩, hroots0⟩ := ih p (p.getD i i) r0 p0 hB hN hrec
        cases h
        have hri2 : r = rootD p i := by
          rw [hr0]
          exact rootD_step p hB hN i
        have hi : i < p.length := ufStep_lt_of_not_fix p i hroot
        have hnotroot0 : ufStep p0 i ≠ i := by
          intro hfix
          have h1 : rootD p0 i = i := rootD_of_root p0 i hfix
          rw [hroots0 i] at h1
          exact hroot (root_of_rootD_self p hN (by omega) i h1)
        have hr0p0 : rootD p0 i = r := by
          rw [hroots0 i]
          exact hri2.symm
        obtain ⟨hWF', hroots'⟩ := rootD_set_to_root p0 i hB0 hN0 hnotroot0
        rw [hr0p0] at hWF' hroots'
        refine ⟨hri2, by simpa using hlen0, hWF', fun x => ?_⟩
        rw [hroots' x, hroots0 x]

lemma findSet_spec (uf : UnionFind) (i : Nat) (hWF : WFp uf.parent)
    (hi : i < uf.parent.length) :
    ∃ uf', uf.findSet i = some (rootD uf.parent i, uf') ∧
      uf'.parent.length = uf.parent.length ∧ WFp uf'.parent ∧
      uf'.rnk = uf.rnk ∧ ∀ x, rootD uf'.parent x = rootD uf.parent x := by
  obtain ⟨hB, hN⟩ := hWF
  obtain ⟨a, ha, hroot⟩ := root_reached uf.parent hB hN i hi
  have hsome := findSetAux_isSome_of_reach uf.parent.length uf.parent i a ha hroot
  unfold UnionFind.findSet
  cases hfs : findSetAux uf.parent.length uf.parent i with
  | none => rw [hfs] at hsome; cases hsome
  | some pr =>
    obtain ⟨r, p'⟩ := pr
    obtain ⟨hr, hlen, hWF', hroots⟩ := findSetAux_spec _ _ _ _ _ hB hN hfs
    exact ⟨⟨p', uf.rnk⟩, by rw [hr], hlen, hWF', rfl, hroots⟩

lemma join_spec (uf : UnionFind) (i j : Nat) (hWF : WFp uf.parent)
    (hi : i < uf.parent.length) (hj : j < uf.parent.length) :
    ∃ uf', uf.join i j = some uf' ∧ uf'.parent.length = uf.parent.length ∧
      WFp uf'.parent ∧
      ∃ w, (w = rootD uf.parent i ∨ w = rootD uf.parent j) ∧
        ∀ x, rootD uf'.parent x =
          if rootD uf.parent x = rootD uf.parent i ∨
              rootD uf.parent x = rootD uf.parent j
          then w else rootD uf.parent x := by
  obtain ⟨hB, hN⟩ := hWF
  have hlen1 : 1 ≤ uf.parent.length := by omega
  obtain ⟨uf1, hfs1, hlen1', hWF1, hrnk1, hroots1⟩ := findSet_spec uf i ⟨hB, hN⟩ hi
  obtain ⟨uf2, hfs2, hlen2', hWF2, hrnk2, hroots2⟩ :=
    findSet_spec uf1 j hWF1 (by omega)
  obtain ⟨hB2, hN2⟩ := hWF2
  set p := uf.parent with hp
  set ri := rootD uf.parent i with hri
  set rj := rootD uf.parent j with hrj
  have hrij : rootD uf1.parent j = rj := hroots1 j
  have hroots12 : ∀ x, rootD uf2.parent x = rootD p x := by
    intro x
    rw [hroots2 x, hroots1 x]
  have hlen2 : uf2.parent.length = p.length := by omega
  have hriL : ri < p.length := rootD_lt p hB i hi
  have hrjL : rj < p.length := rootD_lt p hB j hj
  have hriroot : ufStep uf2.parent ri = ri := by
    apply root_of_rootD_self uf2.parent hN2 (by omega)
    rw [hroots12 ri]
    exact rootD_rootD p hB hN i
  have hrjroot : ufStep uf2.parent rj = rj := by
    apply root_of_rootD_self uf2.parent hN2 (by omega)
    rw [hroots12 rj]
    exact rootD_rootD p hB hN j
  have hfs2' : uf1.findSet j = some (rj, uf2) := by rw [hfs2, hrij]
  unfold UnionFind.join
  rw [hfs1]
  dsimp only
  rw [hfs2']
  dsimp only
  by_cases hrank : uf2.rnk.getD rj 0 < uf2.rnk.getD ri 0
  · rw [if_pos hrank]
    have hne : rj ≠ ri := by
      intro h
      rw [h] at hrank
      exact absurd hrank (lt_irrefl _)
    obtain ⟨hWF', hupd⟩ := rootD_set_root_to_root uf2.parent rj ri hB2 hN2
      hrjroot hriroot hne (by omega) (by omega)
    refine ⟨⟨uf2.parent.set rj ri, uf2.rnk⟩, rfl, by simpa using hlen2, hWF', ri,
      Or.inl rfl, fun x => ?_⟩
    show rootD (uf2.parent.set rj ri) x = _
    rw [hupd x, hroots12 x]
    by_cases h1 : rootD p x = rj
    · rw [if_pos h1, if_pos (Or.inr h1)]
    · rw [if_neg h1]
      by_cases h2 : rootD p x = ri
      · rw [if_pos (Or.inl h2), h2]
      · rw [if_neg (by tauto)]
  · rw [if_neg hrank]
    by_cases heqr : ri = rj
    · have hself : uf2.parent.set ri rj = uf2.parent := by
        rw [← heqr]
        apply set_self_eq
        rw [getD_of_lt _ _ _ (by omega)]
        have := hriroot
        rw [ufStep, getD_of_lt _ _ _ (by omega)] at this
        exact this
      have hform : ∀ x, rootD uf2.parent x =
          if rootD p x = ri ∨ rootD p x = rj then rj
          else rootD p x := by
        intro x
        rw [hroots12 x]
        by_cases h1 : rootD p x = ri
        · rw [if_pos (Or.inl h1), h1, heqr]
        · by_cases h2 : rootD p x = rj
          · rw [if_pos (Or.inr h2), h2]
          · rw [if_neg (by tauto)]
      by_cases hrkeq : uf2.rnk.getD ri 0 = uf2.rnk.getD rj 0
      · rw [if_pos hrkeq]
        exact ⟨_, rfl, by simpa [hself] using hlen2, by simpa [hself] using ⟨hB2, hN2⟩,
          rj, Or.inr rfl, by simpa [hself] using hform⟩
      · rw [if_neg hrkeq]
        exact ⟨_, rfl, by simpa [hself] using hlen2, by simpa [hself] using ⟨hB2, hN2⟩,
          rj, Or.inr rfl, by simpa [hself] using hform⟩
    · obtain ⟨hWF', hupd⟩ := rootD_set_root_to_root uf2.parent ri rj hB2 hN2
        hriroot hrjroot heqr (by omega) (by omega)
      have hform : ∀ x, rootD (uf2.parent.set ri rj) x =
          if rootD p x = ri ∨ rootD p x = rj then rj
          else rootD p x := by
        intro x
        rw [hupd x, hroots12 x]
        by_cases h1 : rootD p x = ri
        · rw [if_pos h1, if_pos (Or.inl h1)]
        · rw [if_neg h1]
          by_cases h2 : rootD p x = rj
          · rw [if_pos (Or.inr h2), h2]
          · rw [if_neg (by tauto)]
      by_cases hrkeq : uf2.rnk.getD ri 0 = uf2.rnk.getD rj 0
      · rw [if_pos hrkeq]
        exact ⟨_, rfl, by simpa using hlen2, hWF', rj, Or.inr rfl, hform⟩
      · rw [if_neg hrkeq]
        exact ⟨_, rfl, by simpa using hlen2, hWF', rj, Or.inr rfl, hform⟩

end Tsp

namespace Tsp

lemma ufStep_init (n : Nat) : ∀ y, ufStep (List.range n) y = y := by
  intro y
  by_cases hy : y < n
  · rw [ufStep, getD_of_lt _ _ _ (by simpa using hy)]
    simp
  · exact ufStep_of_le _ _ (by simpa using hy)

lemma ufInit_wf (n : Nat) : (ufInit n).WF := by
  constructor
  · intro i hi
    show ufStep (List.range n) i < (ufInit n).parent.length
    rw [ufStep_init]
    exact hi
  · intro x k _ _
    exact ufStep_init n x

lemma rootD_init (n : Nat) (x : Nat) : rootD (ufInit n).parent x = x :=
  rootD_of_root _ x (ufStep_init n x)

lemma join_classes (uf : UnionFind) (i j : Nat) (hB : Bounded uf.parent)
    (hN : NoCycle uf.parent) (hi : i < uf.parent.length)
    (hj : j < uf.parent.length) :
    ∃ uf', uf.join i j = some uf' ∧ uf'.parent.length = uf.parent.length ∧
      WFp uf'.parent ∧
      ∀ x y, rootD uf'.parent x = rootD uf'.parent y ↔
        (rootD uf.parent x = rootD uf.parent y ∨
         ((rootD uf.parent x = rootD uf.parent i ∨
           rootD uf.parent x = rootD uf.parent j) ∧
          (rootD uf.parent y = rootD uf.parent i ∨
           rootD uf.parent y = rootD uf.parent j))) := by
  obtain ⟨uf', hjoin, hlen', hWF', w, hw, hupd⟩ := join_spec uf i j ⟨hB, hN⟩ hi hj
  have hwne : ∀ z, rootD uf.parent z ≠ rootD uf.parent i →
      rootD uf.parent z ≠ rootD uf.parent j → w ≠ rootD uf.parent z := by
    intro z h1 h2
    cases hw with
    | inl h => rw [h]; exact fun he => h1 he.symm
    | inr h => rw [h]; exact fun he => h2 he.symm
  refine ⟨uf', hjoin, hlen', hWF', ?_⟩
  intro x y
  rw [hupd x, hupd y]
  by_cases hx : rootD uf.parent x = rootD uf.parent i ∨
      rootD uf.parent x = rootD uf.parent j
  · rw [if_pos hx]
    by_cases hy : rootD uf.parent y = rootD uf.parent i ∨
        rootD uf.parent y = rootD uf.parent j
    · rw [if_pos hy]
      constructor
      · intro _
        exact Or.inr ⟨hx, hy⟩
      · intro _
        rfl
    · rw [if_neg hy]
      push_neg at hy
      constructor
      · intro h
        exact absurd h (hwne y hy.1 hy.2)
      · intro h
        rcases h with h | ⟨_, hy'⟩
        · rw [← h] at hy
          rcases hx with hx | hx
          · exact absurd hx hy.1
          · exact absurd hx hy.2
        · exact absurd hy' (not_or.mpr hy)
  · rw [if_neg hx]
    push_neg at hx
    by_cases hy : rootD uf.parent y = rootD uf.parent i ∨
        rootD uf.parent y = rootD uf.parent j
    · rw [if_pos hy]
      constructor
      · intro h
        exact absurd h.symm (hwne x hx.1 hx.2)
      · intro h
        rcases h with h | ⟨hx', _⟩
        · rw [h] at hx
          rcases hy with hy | hy
          · exact absurd hy hx.1
          · exact absurd hy hx.2
        · exact absurd hx' (not_or.mpr hx)
    · rw [if_neg hy]
      constructor
      · intro h
        exact Or.inl h
      · intro h
        rcases h with h | ⟨hx', _⟩
        · exact h
        · exact absurd hx' (not_or.mpr hx)


/-- C10: the union-find operations preserve the forest invariant: from
any element the parent chain reaches a self-looped root within `n`
steps; `find_set i` returns the root of `i` and does not change which
elements share a root; `join i j` makes the roots of `i` and `j` equal
and merges exactly their two classes, leaving all other sets unchanged —
and the structure stays a valid forest also when `i` and `j` already
share a root. -/
theorem c10_union_find_invariants (uf : UnionFind) (hWF : uf.WF) (i j : Nat)
    (hi : i < uf.parent.length) (hj : j < uf.parent.length) :
    (∀ x, ∃ a, a ≤ uf.parent.length ∧
       (ufStep uf.parent)^[a] x = rootD uf.parent x ∧
       ufStep uf.parent (rootD uf.parent x) = rootD uf.parent x) ∧
    (∃ uf', uf.findSet i = some (rootD uf.parent i, uf') ∧ uf'.WF ∧
       ∀ x y, rootD uf'.parent x = rootD uf'.parent y ↔
         rootD uf.parent x = rootD uf.parent y) ∧
    (∃ uf', uf.join i j = some uf' ∧ uf'.WF ∧
       rootD uf'.parent i = rootD uf'.parent j ∧
       ∀ x y, rootD uf'.parent x = rootD uf'.parent y ↔
         (rootD uf.parent x = rootD uf.parent y ∨
          ((rootD uf.parent x = rootD uf.parent i ∨
            rootD uf.parent x = rootD uf.parent j) ∧
           (rootD uf.parent y = rootD uf.parent i ∨
            rootD uf.parent y = rootD uf.parent j)))) := by
  obtain ⟨hB, hN⟩ := hWF
  refine ⟨?_, ?_, ?_⟩
  · intro x
    exact ⟨uf.parent.length, le_rfl, rfl, rootD_isRoot uf.parent hB hN x⟩
  · obtain ⟨uf', hfs, _, hWF', _, hroots⟩ := findSet_spec uf i ⟨hB, hN⟩ hi
    exact ⟨uf', hfs, hWF', fun x y => by rw [hroots x, hroots y]⟩
  · obtain ⟨uf', hjoin, _, hWF', hiff⟩ := join_classes uf i j hB hN hi hj
    refine ⟨uf', hjoin, hWF', ?_, hiff⟩
    exact (hiff i j).mpr (Or.inr ⟨Or.inl rfl, Or.inr rfl⟩)
end Tsp

namespace Tsp

/-- C10 witness: the two-element union-find. -/
theorem c10_union_find_invariants_witness :
    (ufInit 2).WF ∧ 0 < (ufInit 2).parent.length ∧ 1 < (ufInit 2).parent.length ∧
    ((∀ x, ∃ a, a ≤ (ufInit 2).parent.length ∧
       (ufStep (ufInit 2).parent)^[a] x = rootD (ufInit 2).parent x ∧
       ufStep (ufInit 2).parent (rootD (ufInit 2).parent x) =
         rootD (ufInit 2).parent x) ∧
    (∃ uf', (ufInit 2).findSet 0 = some (rootD (ufInit 2).parent 0, uf') ∧
       uf'.WF ∧
       ∀ x y, rootD uf'.parent x = rootD uf'.parent y ↔
         rootD (ufInit 2).parent x = rootD (ufInit 2).parent y) ∧
    (∃ uf', (ufInit 2).join 0 1 = some uf' ∧ uf'.WF ∧
       rootD uf'.parent 0 = rootD uf'.parent 1 ∧
       ∀ x y, rootD uf'.parent x = rootD uf'.parent y ↔
         (rootD (ufInit 2).parent x = rootD (ufInit 2).parent y ∨
          ((rootD (ufInit 2).parent x = rootD (ufInit 2).parent 0 ∨
            rootD (ufInit 2).parent x = rootD (ufInit 2).parent 1) ∧
           (rootD (ufInit 2).parent y = rootD (ufInit 2).parent 0 ∨
            rootD (ufInit 2).parent y = rootD (ufInit 2).parent 1))))) :=
  ⟨ufInit_wf 2, by with_unfolding_all decide, by with_unfolding_all decide,
    c10_union_find_invariants (ufInit 2) (ufInit_wf 2) 0 1
      (by with_unfolding_all decide) (by with_unfolding_all decide)⟩

end Tsp

namespace Tsp

/-! ## Reachability lemmas -/

lemma reach_refl (T : List Edge) (x : Nat) : Reach T x x :=
  Relation.EqvGen.refl x

lemma reach_symm (T : List Edge) {x y : Nat} (h : Reach T x y) : Reach T y x :=
  Relation.EqvGen.symm x y h

lemma reach_trans (T : List Edge) {x y z : Nat} (h1 : Reach T x y)
    (h2 : Reach T y z) : Reach T x z :=
  Relation.EqvGen.trans x y z h1 h2

lemma reach_of_mem (T : List Edge) (e : Edge) (he : e ∈ T) :
    Reach T e.head e.tail :=
  Relation.EqvGen.rel _ _ ⟨e, he, Or.inl ⟨rfl, rfl⟩⟩

lemma reach_mono (S T : List Edge) (hsub : ∀ e ∈ S, e ∈ T) {x y : Nat}
    (h : Reach S x y) : Reach T x y := by
  refine Relation.EqvGen.mono ?_ h
  intro a b hab
  obtain ⟨e, he, hor⟩ := hab
  exact ⟨e, hsub e he, hor⟩

lemma reach_congr (S T : List Edge) (h : ∀ e, e ∈ S ↔ e ∈ T) (x y : Nat) :
    Reach S x y ↔ Reach T x y :=
  ⟨reach_mono S T (fun e he => (h e).mp he), reach_mono T S (fun e he => (h e).mpr he)⟩

lemma reach_nil {x y : Nat} (h : Reach [] x y) : x = y := by
  induction h with
  | rel a b hab => obtain ⟨e, he, _⟩ := hab; cases he
  | refl a => rfl
  | symm a b _ ih => exact ih.symm
  | trans a b c _ _ ih1 ih2 => exact ih1.trans ih2

lemma reach_append_singleton (T : List Edge) (e : Edge) (x y : Nat) :
    Reach (T ++ [e]) x y ↔ Reach T x y ∨
      (Reach T x e.head ∧ Reach T e.tail y) ∨
      (Reach T x e.tail ∧ Reach T e.head y) := by
  constructor
  · intro h
    induction h with
    | rel a b hab =>
      obtain ⟨f, hf, hor⟩ := hab
      rw [List.mem_append] at hf
      cases hf with
      | inl hfT => exact Or.inl (Relation.EqvGen.rel _ _ ⟨f, hfT, hor⟩)
      | inr hfe =>
        have hfe' : f = e := by simpa using hfe
        subst hfe'
        cases hor with
        | inl h1 =>
          refine Or.inr (Or.inl ⟨?_, ?_⟩)
          · rw [← h1.1]; exact reach_refl T _
          · rw [← h1.2]; exact reach_refl T _
        | inr h1 =>
          refine Or.inr (Or.inr ⟨?_, ?_⟩)
          · rw [← h1.2]; exact reach_refl T _
          · rw [← h1.1]; exact reach_refl T _
    | refl a => exact Or.inl (reach_refl T a)
    | symm a b _ ih =>
      rcases ih with h1 | ⟨h1, h2⟩ | ⟨h1, h2⟩
      · exact Or.inl (reach_symm T h1)
      · exact Or.inr (Or.inr ⟨reach_symm T h2, reach_symm T h1⟩)
      · exact Or.inr (Or.inl ⟨reach_symm T h2, reach_symm T h1⟩)
    | trans a b c _ _ ih1 ih2 =>
      rcases ih1 with h1 | ⟨h1, h2⟩ | ⟨h1, h2⟩
      · rcases ih2 with h3 | ⟨h3, h4⟩ | ⟨h3, h4⟩
        · exact Or.inl (reach_trans T h1 h3)
        · exact Or.inr (Or.inl ⟨reach_trans T h1 h3, h4⟩)
        · exact Or.inr (Or.inr ⟨reach_trans T h1 h3, h4⟩)
      · rcases ih2 with h3 | ⟨h3, h4⟩ | ⟨h3, h4⟩
        · exact Or.inr (Or.inl ⟨h1, reach_trans T h2 h3⟩)
        · exact Or.inl (reach_trans T h1
            (reach_trans T (reach_symm T h3) (reach_trans T (reach_symm T h2) h4)))
        · exact Or.inl (reach_trans T h1 h4)
      · rcases ih2 with h3 | ⟨h3, h4⟩ | ⟨h3, h4⟩
        · exact Or.inr (Or.inr ⟨h1, reach_trans T h2 h3⟩)
        · exact Or.inl (reach_trans T h1 h4)
        · exact Or.inl (reach_trans T h1
            (reach_trans T (reach_symm T h3) (reach_trans T (reach_symm T h2) h4)))
  · intro h
    have hsub : ∀ f ∈ T, f ∈ T ++ [e] := fun f hf => List.mem_append_left _ hf
    have hedge : Reach (T ++ [e]) e.head e.tail :=
      reach_of_mem _ e (List.mem_append_right _ (by simp))
    rcases h with h | ⟨h1, h2⟩ | ⟨h1, h2⟩
    · exact reach_mono T _ hsub h
    · exact reach_trans _ (reach_mono T _ hsub h1)
        (reach_trans _ hedge (reach_mono T _ hsub h2))
    · exact reach_trans _ (reach_mono T _ hsub h1)
        (reach_trans _ (reach_symm _ hedge) (reach_mono T _ hsub h2))

end Tsp

namespace Tsp

/-! ## Counting connected components -/

lemma numComponents_nil (n : Nat) : numComponents n [] = n := by
  have hinj : Function.Injective (Quotient.mk (reachSetoid n []) : Fin n → _) := by
    intro a b hab
    exact Fin.val_injective (reach_nil (Quotient.exact hab))
  have hbij : Function.Bijective (Quotient.mk (reachSetoid n []) : Fin n → _) :=
    ⟨hinj, Quotient.mk_surjective⟩
  unfold numComponents
  rw [← Nat.card_eq_of_bijective _ hbij]
  simp

lemma numComponents_snoc (n : Nat) (T : List Edge) (e : Edge)
    (hh : e.head < n) (ht : e.tail < n) (hnr : ¬ Reach T e.head e.tail) :
    numComponents n (T ++ [e]) + 1 = numComponents n T := by
  classical
  have hmono : ∀ a b : Fin n, (reachSetoid n T).r a b → (reachSetoid n (T ++ [e])).r a b := by
    intro a b hab
    exact reach_mono T (T ++ [e]) (fun f hf => List.mem_append_left _ hf) hab
  set ufin : Fin n := ⟨e.head, hh⟩ with hufin
  set vfin : Fin n := ⟨e.tail, ht⟩ with hvfin
  let F : Quotient (reachSetoid n T) → Quotient (reachSetoid n (T ++ [e])) ⊕ Unit :=
    fun x =>
      if x = Quotient.mk _ vfin then Sum.inr ()
      else Sum.inl (Quotient.map id hmono x)
  have hFbij : Function.Bijective F := by
    constructor
    · intro x y hxy
      by_cases hx : x = Quotient.mk _ vfin
      · by_cases hy : y = Quotient.mk _ vfin
        · rw [hx, hy]
        · simp only [F, hx, hy, if_pos rfl, if_neg hy] at hxy
          cases hxy
      · by_cases hy : y = Quotient.mk _ vfin
        · simp only [F, hx, hy, if_neg hx, if_pos rfl] at hxy
          cases hxy
        · simp only [F, if_neg hx, if_neg hy] at hxy
          have hxy' := Sum.inl.inj hxy
          obtain ⟨a, rfl⟩ := Quotient.exists_rep x
          obtain ⟨b, rfl⟩ := Quotient.exists_rep y
          rw [Quotient.map_mk, Quotient.map_mk] at hxy'
          have hab : Reach (T ++ [e]) a.1 b.1 := Quotient.exact hxy'
          rw [reach_append_singleton] at hab
          rcases hab with hab | ⟨ha1, ha2⟩ | ⟨ha1, ha2⟩
          · exact Quotient.sound hab
          · exact absurd (Quotient.sound ha2 : Quotient.mk _ vfin = _) (Ne.symm hy)
          · exact absurd (Quotient.sound ha1 : Quotient.mk _ a = _) hx
    · intro z
      cases z with
      | inr u =>
        cases u
        exact ⟨Quotient.mk _ vfin, by simp only [F, if_pos rfl]⟩
      | inl q =>
        obtain ⟨a, rfl⟩ := Quotient.exists_rep q
        by_cases hav : Reach T a.1 e.tail
        · refine ⟨Quotient.mk _ ufin, ?_⟩
          have hne : Quotient.mk (reachSetoid n T) ufin ≠ Quotient.mk _ vfin := by
            intro hcon
            exact hnr (Quotient.exact hcon)
          simp only [F, if_neg hne]
          congr 1
          rw [Quotient.map_mk]
          apply Quotient.sound
          show Reach (T ++ [e]) e.head a.1
          have h1 : Reach (T ++ [e]) e.head e.tail :=
            reach_of_mem _ e (List.mem_append_right _ (by simp))
          refine reach_trans _ h1 ?_
          exact reach_mono T _ (fun f hf => List.mem_append_left _ hf)
            (reach_symm T hav)
        · refine ⟨Quotient.mk _ a, ?_⟩
          have hne : Quotient.mk (reachSetoid n T) a ≠ Quotient.mk _ vfin := by
            intro hcon
            exact hav (Quotient.exact hcon)
          simp only [F, if_neg hne]
          rw [Quotient.map_mk]
          rfl
  have hcard := Nat.card_eq_of_bijective F hFbij
  unfold numComponents
  rw [hcard, Nat.card_sum]
  simp

lemma isForest_endpoint_ne (T : List Edge) (e : Edge)
    (hnr : ¬ Reach T e.head e.tail) : e.head ≠ e.tail := by
  intro h
  exact hnr (h ▸ reach_refl T e.head)

lemma isForest_numComponents (n : Nat) :
    ∀ T, IsForest T → (∀ e ∈ T, e.head < n ∧ e.tail < n) →
      numComponents n T + T.length = n := by
  intro T hT
  induction hT with
  | nil => intro _; simpa using numComponents_nil n
  | snoc T e hT hnew ih =>
    intro hval
    have hvT : ∀ f ∈ T, f.head < n ∧ f.tail < n := fun f hf =>
      hval f (List.mem_append_left _ hf)
    have he := hval e (List.mem_append_right _ (by simp))
    have hmerge := numComponents_snoc n T e he.1 he.2 hnew
    have hlen : (T ++ [e]).length = T.length + 1 := by simp
    have hih := ih hvT
    omega

lemma spans_of_numComponents (n : Nat) (T : List Edge)
    (h : numComponents n T ≤ 1) : Spans n T := by
  intro x hx y hy
  have hsub : Subsingleton (Quotient (reachSetoid n T)) := by
    rcases Nat.le_one_iff_eq_zero_or_eq_one.mp h with h0 | h1
    · constructor
      intro a b
      have hne : Nat.card (Quotient (reachSetoid n T)) ≠ 0 :=
        Nat.card_ne_zero.mpr ⟨⟨a⟩, inferInstance⟩
      exact absurd h0 hne
    · exact (Nat.card_eq_one_iff_unique.mp h1).1
  have heq : (Quotient.mk (reachSetoid n T) ⟨x, hx⟩) = Quotient.mk _ ⟨y, hy⟩ :=
    hsub.elim _ _
  exact Quotient.exact heq

lemma numComponents_le_of_subrel (n : Nat) (F1 F2 : List Edge)
    (h : ∀ x y, Reach F2 x y → Reach F1 x y) :
    numComponents n F1 ≤ numComponents n F2 := by
  have hmono : ∀ a b : Fin n, (reachSetoid n F2).r a b → (reachSetoid n F1).r a b :=
    fun a b hab => h a.1 b.1 hab
  have hsurj : Function.Surjective
      (Quotient.map id hmono : Quotient (reachSetoid n F2) → Quotient (reachSetoid n F1)) := by
    intro q
    obtain ⟨a, rfl⟩ := Quotient.exists_rep q
    exact ⟨Quotient.mk _ a, Quotient.map_mk _ _ _⟩
  exact Nat.card_le_card_of_surjective _ hsurj

end Tsp

namespace Tsp

/-! ## Structural lemmas about forests -/

lemma isForest_inv : ∀ (L : List Edge), IsForest L → ∀ T e, L = T ++ [e] →
    IsForest T ∧ ¬ Reach T e.head e.tail := by
  intro L hL
  cases hL with
  | nil =>
    intro T e h
    exact absurd h.symm (by simp)
  | snoc T' e' hT' hnew' =>
    intro T e h
    have hrev := congrArg List.reverse h
    simp only [List.reverse_append, List.reverse_singleton, List.singleton_append,
      List.cons.injEq] at hrev
    obtain ⟨he, hT⟩ := hrev
    have hTT : T' = T := by
      rw [← List.reverse_inj]
      exact hT
    subst hTT
    subst he
    exact ⟨hT', hnew'⟩

lemma isForest_delete :
    ∀ (B A : List Edge) (f : Edge), IsForest (A ++ f :: B) →
      IsForest (A ++ B) ∧ ¬ Reach (A ++ B) f.head f.tail := by
  intro B
  induction B using List.reverseRecOn with
  | nil =>
    intro A f h
    have := isForest_inv (A ++ [f]) (by simpa using h) A f rfl
    simpa using this
  | append_singleton B0 e ih =>
    intro A f h
    have hshape : A ++ f :: (B0 ++ [e]) = (A ++ f :: B0) ++ [e] := by simp
    rw [hshape] at h
    obtain ⟨h1, h2⟩ := isForest_inv _ h _ e rfl
    obtain ⟨h3, h4⟩ := ih A f h1
    have hsubAB : ∀ g ∈ A ++ B0, g ∈ A ++ f :: B0 := by
      intro g hg
      rw [List.mem_append] at hg
      rcases hg with hg | hg
      · exact List.mem_append_left _ hg
      · exact List.mem_append_right _ (List.mem_cons_of_mem f hg)
    have hf_mem : f ∈ A ++ f :: B0 :=
      List.mem_append_right _ (List.mem_cons_self f B0)
    constructor
    · rw [show A ++ (B0 ++ [e]) = (A ++ B0) ++ [e] by simp]
      refine IsForest.snoc _ _ h3 ?_
      intro hre
      exact h2 (reach_mono _ _ hsubAB hre)
    · rw [show A ++ (B0 ++ [e]) = (A ++ B0) ++ [e] by simp]
      intro hrf
      rw [reach_append_singleton] at hrf
      rcases hrf with hrf | ⟨ha, hb⟩ | ⟨ha, hb⟩
      · exact h4 hrf
      · apply h2
        have hfh : Reach (A ++ f :: B0) e.head f.head :=
          reach_symm _ (reach_mono _ _ hsubAB ha)
        have hft : Reach (A ++ f :: B0) f.tail e.tail :=
          reach_symm _ (reach_mono _ _ hsubAB hb)
        exact reach_trans _ hfh (reach_trans _ (reach_of_mem _ f hf_mem) hft)
      · apply h2
        have h5 : Reach (A ++ f :: B0) e.head f.tail :=
          reach_mono _ _ hsubAB hb
        have h6 : Reach (A ++ f :: B0) f.head e.tail :=
          reach_mono _ _ hsubAB ha
        exact reach_trans _ h5
          (reach_trans _ (reach_symm _ (reach_of_mem _ f hf_mem)) h6)

lemma isForest_perm : ∀ (T' T : List Edge), T.Perm T' → IsForest T → IsForest T' := by
  intro T'
  induction T' using List.reverseRecOn with
  | nil =>
    intro T hperm _
    have hTnil : T = [] := hperm.eq_nil
    subst hTnil
    exact IsForest.nil
  | append_singleton C g ih =>
    intro T hperm hT
    have hg : g ∈ T := hperm.mem_iff.mpr (List.mem_append_right _ (by simp))
    obtain ⟨A, B, rfl⟩ := List.append_of_mem hg
    obtain ⟨hAB, hnr⟩ := isForest_delete B A g hT
    have hCperm : (A ++ B).Perm C := by
      have h1 : (A ++ g :: B).Perm (g :: (A ++ B)) := List.perm_middle
      have h2 : (C ++ [g]).Perm (g :: C) := List.perm_append_singleton g C
      have h3 : (g :: (A ++ B)).Perm (g :: C) := h1.symm.trans (hperm.trans h2)
      exact h3.cons_inv
    have hC : IsForest C := ih (A ++ B) hCperm hAB
    refine IsForest.snoc C g hC ?_
    intro hre
    apply hnr
    exact (reach_congr C (A ++ B) (fun e => hCperm.mem_iff.symm) g.head g.tail).mp hre

end Tsp

namespace Tsp

lemma isForest_prefix : ∀ (T P : List Edge), P <+: T → IsForest T → IsForest P := by
  intro T
  induction T using List.reverseRecOn with
  | nil =>
    intro P hp _
    rw [List.prefix_nil.mp hp]
    exact IsForest.nil
  | append_singleton T0 e ih =>
    intro P hp hT
    obtain ⟨h1, h2⟩ := isForest_inv _ hT T0 e rfl
    by_cases hPT : P = T0 ++ [e]
    · rw [hPT]
      exact hT
    · refine ih P ?_ h1
      obtain ⟨rest, hrest⟩ := hp
      cases rest using List.reverseRecOn with
      | nil => exact absurd (by simpa using hrest) hPT
      | append_singleton r0 rl =>
        refine ⟨r0, ?_⟩
        have : P ++ (r0 ++ [rl]) = (P ++ r0) ++ [rl] := by simp
        rw [this] at hrest
        have hrev := congrArg List.reverse hrest
        simp only [List.reverse_append, List.reverse_singleton,
          List.singleton_append, List.cons.injEq] at hrev
        rw [← List.reverse_inj, List.reverse_append]
        exact hrev.2

lemma forest_exchange (n : Nat) (F1 F2 : List Edge)
    (h1 : IsForest F1) (h2 : IsForest F2)
    (hv1 : ∀ e ∈ F1, e.head < n ∧ e.tail < n)
    (hv2 : ∀ e ∈ F2, e.head < n ∧ e.tail < n)
    (hlen : F1.length < F2.length) :
    ∃ e ∈ F2, ¬ Reach F1 e.head e.tail := by
  by_contra hcon
  push_neg at hcon
  have hsub : ∀ x y, Reach F2 x y → Reach F1 x y := by
    intro x y h
    induction h with
    | rel a b hab =>
      obtain ⟨e, he, hor⟩ := hab
      rcases hor with ⟨hh, ht⟩ | ⟨hh, ht⟩
      · rw [← hh, ← ht]
        exact hcon e he
      · rw [← hh, ← ht]
        exact reach_symm _ (hcon e he)
    | refl a => exact reach_refl _ a
    | symm a b _ ih => exact reach_symm _ ih
    | trans a b c _ _ ih1 ih2 => exact reach_trans _ ih1 ih2
  have hle := numComponents_le_of_subrel n F1 F2 hsub
  have e1 := isForest_numComponents n F1 h1 hv1
  have e2 := isForest_numComponents n F2 h2 hv2
  omega

end Tsp

namespace Tsp

/-! ## The edge list and its sorted form -/

lemma edgeList_valid (n : Nat) (c : Cost) :
    ∀ e ∈ edgeList n c, e.head < n ∧ e.tail < n ∧ e.head < e.tail ∧
      e.cost = c e.head e.tail := by
  intro e he
  unfold edgeList at he
  rw [List.mem_flatMap] at he
  obtain ⟨i, hi, he2⟩ := he
  rw [List.mem_map] at he2
  obtain ⟨j, hj, rfl⟩ := he2
  rw [List.mem_filter] at hj
  obtain ⟨hjr, hij⟩ := hj
  have hij' : i < j := of_decide_eq_true hij
  exact ⟨lt_trans hij' (List.mem_range.mp hjr), List.mem_range.mp hjr, hij', rfl⟩

lemma edgeList_complete (n : Nat) (c : Cost) (u v : Nat) (huv : u < v)
    (hv : v < n) : (⟨u, v, c u v⟩ : Edge) ∈ edgeList n c := by
  unfold edgeList
  rw [List.mem_flatMap]
  refine ⟨u, List.mem_range.mpr (by omega), ?_⟩
  rw [List.mem_map]
  refine ⟨v, ?_, rfl⟩
  rw [List.mem_filter]
  exact ⟨List.mem_range.mpr hv, by simpa using huv⟩

lemma sortEdges_perm (es : List Edge) : (sortEdges es).Perm es :=
  List.mergeSort_perm es _

lemma sortEdges_sorted (es : List Edge) :
    List.Pairwise (fun a b : Edge => a.cost ≤ b.cost) (sortEdges es) := by
  refine List.Pairwise.imp ?_ (List.sorted_mergeSort ?_ ?_ es)
  · intro a b h
    exact of_decide_eq_true h
  · intro a b d h1 h2
    exact decide_eq_true (le_trans (of_decide_eq_true h1) (of_decide_eq_true h2))
  · intro a b
    simpa using le_total a.cost b.cost

lemma numComponents_le_one_of_spans (n : Nat) (T : List Edge) (h : Spans n T) :
    numComponents n T ≤ 1 := by
  have hsub : Subsingleton (Quotient (reachSetoid n T)) := by
    constructor
    intro a b
    obtain ⟨p, rfl⟩ := Quotient.exists_rep a
    obtain ⟨q, rfl⟩ := Quotient.exists_rep b
    exact Quotient.sound (h p.1 p.2 q.1 q.2)
  rcases isEmpty_or_nonempty (Quotient (reachSetoid n T)) with he | hne
  · unfold numComponents
    rw [Nat.card_of_isEmpty]
    omega
  · unfold numComponents
    rw [Nat.card_eq_one_iff_unique.mpr ⟨hsub, hne⟩]

/-- At loop exit (`size = n - 1`) the accumulated forest spans all
vertices and carries the greedy property. -/
lemma kruskalScan_stop (n : Nat) (c : Cost) (hn : 1 ≤ n) (es : List Edge)
    (acc : List Edge)
    (hforest : IsForest acc)
    (hvacc : ∀ e ∈ acc, e.head < n ∧ e.tail < n ∧ e.cost = c e.head e.tail)
    (hves : ∀ e ∈ es, e.head < n ∧ e.tail < n ∧ e.head < e.tail ∧
      e.cost = c e.head e.tail)
    (hcomp : ∀ u v, u < v → v < n →
      (∃ e ∈ es, e.head = u ∧ e.tail = v) ∨ (⟨u, v, c u v⟩ : Edge) ∈ acc ∨
        Reach (acc.filter fun a => decide (a.cost ≤ c u v)) u v)
    (hcross : ∀ a ∈ acc, ∀ e ∈ es, a.cost ≤ e.cost)
    (hstop : n - 1 ≤ acc.length) :
    acc.length = n - 1 ∧ Spans n acc ∧
      (∀ u v, u < v → v < n → (⟨u, v, c u v⟩ : Edge) ∈ acc ∨
        Reach (acc.filter fun a => decide (a.cost ≤ c u v)) u v) := by
  have hcount := isForest_numComponents n acc hforest
    (fun e he => ⟨(hvacc e he).1, (hvacc e he).2.1⟩)
  have hnc1 : 1 ≤ numComponents n acc := by
    have hne : Nonempty (Quotient (reachSetoid n acc)) :=
      ⟨Quotient.mk _ ⟨0, by omega⟩⟩
    exact Nat.one_le_iff_ne_zero.mpr (Nat.card_ne_zero.mpr ⟨hne, inferInstance⟩)
  have hlenacc : acc.length = n - 1 := by omega
  have hncomp : numComponents n acc ≤ 1 := by omega
  have hspans := spans_of_numComponents n acc hncomp
  refine ⟨hlenacc, hspans, ?_⟩
  intro u v huv hv
  rcases hcomp u v huv hv with ⟨e, he, hh, ht⟩ | h | h
  · right
    have hfe : acc.filter (fun a => decide (a.cost ≤ c u v)) = acc := by
      rw [List.filter_eq_self]
      intro a ha
      have h1 := hcross a ha e he
      have h2 := (hves e he).2.2.2
      rw [h2, hh, ht] at h1
      exact decide_eq_true h1
    rw [hfe]
    exact hspans u (by omega) v hv
  · exact Or.inl h
  · exact Or.inr h

end Tsp

namespace Tsp

/-- The main invariant argument for the Kruskal scan: given the
union-find state mirroring the connectivity of the accepted edges, the
scan succeeds and returns a spanning forest of `n - 1` edges with the
greedy property. -/
lemma kruskalScan_spec (n : Nat) (c : Cost) (hn : 1 ≤ n) :
    ∀ (es : List Edge) (uf : UnionFind) (acc : List Edge),
      WFp uf.parent → uf.parent.length = n →
      (∀ x y, x < n → y < n →
        (rootD uf.parent x = rootD uf.parent y ↔ Reach acc x y)) →
      IsForest acc →
      (∀ e ∈ acc, e.head < n ∧ e.tail < n ∧ e.cost = c e.head e.tail) →
      (∀ e ∈ es, e.head < n ∧ e.tail < n ∧ e.head < e.tail ∧
        e.cost = c e.head e.tail) →
      (∀ u v, u < v → v < n →
        (∃ e ∈ es, e.head = u ∧ e.tail = v) ∨ (⟨u, v, c u v⟩ : Edge) ∈ acc ∨
          Reach (acc.filter fun a => decide (a.cost ≤ c u v)) u v) →
      List.Pairwise (fun a b => a.cost ≤ b.cost) es →
      (∀ a ∈ acc, ∀ e ∈ es, a.cost ≤ e.cost) →
      List.Pairwise (fun a b => a.cost ≤ b.cost) acc →
      ∃ K, kruskalScan n es uf acc.length acc = some K ∧
        K.length = n - 1 ∧ IsForest K ∧
        (∀ e ∈ K, e.head < n ∧ e.tail < n ∧ e.cost = c e.head e.tail) ∧
        Spans n K ∧
        List.Pairwise (fun a b => a.cost ≤ b.cost) K ∧
        ∀ u v, u < v → v < n → (⟨u, v, c u v⟩ : Edge) ∈ K ∨
          Reach (K.filter fun a => decide (a.cost ≤ c u v)) u v := by
  intro es
  induction es with
  | nil =>
    intro uf acc hWF hlen hbridge hforest hvacc hves hcomp hsort hcross hsacc
    by_cases hstop : n - 1 ≤ acc.length
    · obtain ⟨hlenacc, hspans, hgreedy⟩ := kruskalScan_stop n c hn [] acc
        hforest hvacc hves hcomp hcross hstop
      refine ⟨acc, ?_, hlenacc, hforest, hvacc, hspans, hsacc, hgreedy⟩
      rw [kruskalScan, if_pos hstop]
    · exfalso
      have hcount := isForest_numComponents n acc hforest
        (fun e he => ⟨(hvacc e he).1, (hvacc e he).2.1⟩)
      have hdisc : ∃ u v, u < n ∧ v < n ∧ ¬ Reach acc u v := by
        by_contra hall
        push_neg at hall
        have hsp : Spans n acc := fun x hx y hy => hall x y hx hy
        have := numComponents_le_one_of_spans n acc hsp
        omega
      obtain ⟨u, v, hu, hv, hnr⟩ := hdisc
      have hune : u ≠ v := fun h => hnr (h ▸ reach_refl acc u)
      have key : ∀ a b, a < b → b < n → ¬ Reach acc a b → False := by
        intro a b hab hbn hnab
        rcases hcomp a b hab hbn with ⟨e, he, _⟩ | h | h
        · cases he
        · exact hnab (reach_of_mem acc _ h)
        · exact hnab (reach_mono _ acc
            (fun f hf => (List.mem_filter.mp hf).1) h)
      rcases Nat.lt_or_ge u v with h | h
      · exact key u v h hv hnr
      · exact key v u (by omega) hu (fun hre => hnr (reach_symm acc hre))
  | cons e rest ih =>
    intro uf acc hWF hlen hbridge hforest hvacc hves hcomp hsort hcross hsacc
    by_cases hstop : n - 1 ≤ acc.length
    · obtain ⟨hlenacc, hspans, hgreedy⟩ := kruskalScan_stop n c hn (e :: rest) acc
        hforest hvacc hves hcomp hcross hstop
      refine ⟨acc, ?_, hlenacc, hforest, hvacc, hspans, hsacc, hgreedy⟩
      rw [kruskalScan, if_pos hstop]
    · obtain ⟨hh, ht, hht, hc⟩ := hves e (List.mem_cons_self e rest)
      obtain ⟨hB, hN⟩ := hWF
      obtain ⟨uf1, hfs1, hlen1, hWF1, _, hroots1⟩ :=
        findSet_spec uf e.head ⟨hB, hN⟩ (by omega)
      obtain ⟨uf2, hfs2, hlen2, hWF2, _, hroots2⟩ :=
        findSet_spec uf1 e.tail hWF1 (by omega)
      have hfs2' : uf1.findSet e.tail = some (rootD uf.parent e.tail, uf2) := by
        rw [hfs2, hroots1]
      have hb2 : ∀ x, rootD uf2.parent x = rootD uf.parent x := by
        intro x
        rw [hroots2 x, hroots1 x]
      have hb' : ∀ x y, x < n → y < n →
          (rootD uf2.parent x = rootD uf2.parent y ↔ Reach acc x y) := by
        intro x y hx hy
        rw [hb2 x, hb2 y]
        exact hbridge x y hx hy
      obtain ⟨hB2, hN2⟩ := hWF2
      by_cases hrr : rootD uf.parent e.head = rootD uf.parent e.tail
      · -- reject: endpoints already connected
        have hreach : Reach acc e.head e.tail := (hbridge _ _ hh ht).mp hrr
        have hstep : kruskalScan n (e :: rest) uf acc.length acc =
            kruskalScan n rest uf2 acc.length acc := by
          rw [kruskalScan, if_neg hstop]
          rw [hfs1]
          dsimp only
          rw [hfs2']
          dsimp only
          rw [if_neg (by simpa using hrr)]
        obtain ⟨K, hK, hrest⟩ := ih uf2 acc ⟨hB2, hN2⟩ (by omega) hb' hforest hvacc
          (fun f hf => hves f (List.mem_cons_of_mem e hf))
          (by
            intro u v huv hv
            rcases hcomp u v huv hv with ⟨f, hf, hfh, hft⟩ | h | h
            · rcases List.mem_cons.mp hf with hfe | hf'
              · right; right
                have hfilt : acc.filter (fun a => decide (a.cost ≤ c u v)) = acc := by
                  rw [List.filter_eq_self]
                  intro a ha
                  have h1 := hcross a ha f hf
                  rw [(hves f hf).2.2.2, hfh, hft] at h1
                  exact decide_eq_true h1
                rw [hfilt, ← hfh, ← hft, hfe]
                exact hreach
              · exact Or.inl ⟨f, hf', hfh, hft⟩
            · exact Or.inr (Or.inl h)
            · exact Or.inr (Or.inr h))
          (List.Pairwise.of_cons hsort)
          (fun a ha f hf => hcross a ha f (List.mem_cons_of_mem e hf))
          hsacc
        exact ⟨K, hstep.trans hK, hrest⟩
      · -- accept: endpoints in different components
        have hnr : ¬ Reach acc e.head e.tail := fun hre =>
          hrr ((hbridge _ _ hh ht).mpr hre)
        obtain ⟨uf3, hjoin, hlen3, hWF3, hiff⟩ :=
          join_classes uf2 e.head e.tail hB2 hN2 (by omega) (by omega)
        have hstep : kruskalScan n (e :: rest) uf acc.length acc =
            kruskalScan n rest uf3 (acc.length + 1) (acc ++ [e]) := by
          rw [kruskalScan, if_neg hstop]
          rw [hfs1]
          dsimp only
          rw [hfs2']
          dsimp only
          rw [if_pos (by simpa using hrr), hjoin]
        have hbridge3 : ∀ x y, x < n → y < n →
            (rootD uf3.parent x = rootD uf3.parent y ↔ Reach (acc ++ [e]) x y) := by
          intro x y hx hy
          rw [hiff x y, reach_append_singleton]
          constructor
          · rintro (h | ⟨hA, hB'⟩)
            · exact Or.inl ((hb' x y hx hy).mp h)
            · rcases hA with hA | hA
              · rcases hB' with hB' | hB'
                · exact Or.inl (reach_trans _ ((hb' x e.head hx hh).mp hA)
                    (reach_symm _ ((hb' y e.head hy hh).mp hB')))
                · exact Or.inr (Or.inl ⟨(hb' x e.head hx hh).mp hA,
                    reach_symm _ ((hb' y e.tail hy ht).mp hB')⟩)
              · rcases hB' with hB' | hB'
                · exact Or.inr (Or.inr ⟨(hb' x e.tail hx ht).mp hA,
                    reach_symm _ ((hb' y e.head hy hh).mp hB')⟩)
                · exact Or.inl (reach_trans _ ((hb' x e.tail hx ht).mp hA)
                    (reach_symm _ ((hb' y e.tail hy ht).mp hB')))
          · rintro (h | ⟨h1, h2⟩ | ⟨h1, h2⟩)
            · exact Or.inl ((hb' x y hx hy).mpr h)
            · exact Or.inr ⟨Or.inl ((hb' x e.head hx hh).mpr h1),
                Or.inr ((hb' y e.tail hy ht).mpr (reach_symm _ h2))⟩
            · exact Or.inr ⟨Or.inr ((hb' x e.tail hx ht).mpr h1),
                Or.inl ((hb' y e.head hy hh).mpr (reach_symm _ h2))⟩
        obtain ⟨K, hK, hrest⟩ := ih uf3 (acc ++ [e]) hWF3 (by omega) hbridge3
          (IsForest.snoc acc e hforest hnr)
          (by
            intro f hf
            rcases List.mem_append.mp hf with hf' | hf'
            · exact hvacc f hf'
            · have : f = e := by simpa using hf'
              subst this
              exact ⟨hh, ht, hc⟩)
          (fun f hf => hves f (List.mem_cons_of_mem e hf))
          (by
            intro u v huv hv
            rcases hcomp u v huv hv with ⟨f, hf, hfh, hft⟩ | h | h
            · rcases List.mem_cons.mp hf with hfe | hf'
              · right; left
                have hfc : f.cost = c u v := by
                  rw [(hves f hf).2.2.2, hfh, hft]
                have hEq : (⟨u, v, c u v⟩ : Edge) = f := by
                  rw [← hfc, ← hfh, ← hft]
                rw [hEq, hfe]
                exact List.mem_append_right _ (by simp)
              · exact Or.inl ⟨f, hf', hfh, hft⟩
            · exact Or.inr (Or.inl (List.mem_append_left _ h))
            · refine Or.inr (Or.inr (reach_mono _ _ ?_ h))
              intro g hg
              rw [List.mem_filter] at hg ⊢
              exact ⟨List.mem_append_left _ hg.1, hg.2⟩)
          (List.Pairwise.of_cons hsort)
          (by
            intro a ha f hf
            rcases List.mem_append.mp ha with ha' | ha'
            · exact hcross a ha' f (List.mem_cons_of_mem e hf)
            · have hae : a = e := by simpa using ha'
              rw [hae]
              exact (List.pairwise_cons.mp hsort).1 f hf)
          (by
            rw [List.pairwise_append]
            refine ⟨hsacc, List.pairwise_singleton _ _, ?_⟩
            intro a ha f hf
            have hfe2 : f = e := by simpa using hf
            rw [hfe2]
            exact hcross a ha e (List.mem_cons_self e rest))
        refine ⟨K, ?_, hrest⟩
        rw [hstep]
        have hlenapp : (acc ++ [e]).length = acc.length + 1 := by simp
        rw [hlenapp] at hK
        exact hK

end Tsp

namespace Tsp

lemma one_le_numComponents (n : Nat) (hn : 1 ≤ n) (T : List Edge) :
    1 ≤ numComponents n T := by
  have hne : Nonempty (Quotient (reachSetoid n T)) := ⟨Quotient.mk _ ⟨0, by omega⟩⟩
  exact Nat.one_le_iff_ne_zero.mpr (Nat.card_ne_zero.mpr ⟨hne, inferInstance⟩)

/-- `mst` succeeds on every complete weighted graph with `n ≥ 1`
vertices, returning a sorted spanning forest of `n - 1` edges with the
greedy property. -/
lemma mst_spec (n : Nat) (hn : 1 ≤ n) (c : Cost) :
    ∃ K, mst n c = some K ∧ K.length = n - 1 ∧ IsForest K ∧
      (∀ e ∈ K, e.head < n ∧ e.tail < n ∧ e.cost = c e.head e.tail) ∧
      Spans n K ∧ List.Pairwise (fun a b => a.cost ≤ b.cost) K ∧
      ∀ u v, u < v → v < n → (⟨u, v, c u v⟩ : Edge) ∈ K ∨
        Reach (K.filter fun a => decide (a.cost ≤ c u v)) u v := by
  have hlen : (ufInit n).parent.length = n := by
    simp [ufInit]
  have hbridge : ∀ x y, x < n → y < n →
      (rootD (ufInit n).parent x = rootD (ufInit n).parent y ↔ Reach [] x y) := by
    intro x y _ _
    rw [rootD_init, rootD_init]
    constructor
    · intro h
      rw [h]
      exact reach_refl [] y
    · intro h
      exact reach_nil h
  have hves : ∀ e ∈ sortEdges (edgeList n c), e.head < n ∧ e.tail < n ∧
      e.head < e.tail ∧ e.cost = c e.head e.tail := by
    intro e he
    exact edgeList_valid n c e ((sortEdges_perm _).mem_iff.mp he)
  have hcomp : ∀ u v, u < v → v < n →
      (∃ e ∈ sortEdges (edgeList n c), e.head = u ∧ e.tail = v) ∨
        (⟨u, v, c u v⟩ : Edge) ∈ ([] : List Edge) ∨
        Reach (([] : List Edge).filter fun a => decide (a.cost ≤ c u v)) u v := by
    intro u v huv hv
    exact Or.inl ⟨⟨u, v, c u v⟩,
      (sortEdges_perm _).mem_iff.mpr (edgeList_complete n c u v huv hv), rfl, rfl⟩
  have h := kruskalScan_spec n c hn (sortEdges (edgeList n c)) (ufInit n) []
    (ufInit_wf n) hlen hbridge IsForest.nil (by intro e he; cases he) hves hcomp
    (sortEdges_sorted _) (by intro a ha; cases ha) List.Pairwise.nil
  exact h

lemma spanningTree_length (n : Nat) (hn : 1 ≤ n) (c : Cost) (T : List Edge)
    (hT : SpanningTree n c T) : T.length = n - 1 := by
  obtain ⟨hv, hf, hs⟩ := hT
  have h1 := isForest_numComponents n T hf
    (fun e he => ⟨(hv e he).1, (hv e he).2.1⟩)
  have h2 := numComponents_le_one_of_spans n T hs
  have h3 := one_le_numComponents n hn T
  omega

lemma treeWeight_perm (L1 L2 : List Edge) (h : L1.Perm L2) :
    treeWeight L1 = treeWeight L2 :=
  List.Perm.sum_eq (h.map Edge.cost)

lemma treeWeight_le_of_pointwise :
    ∀ (L1 L2 : List Edge), L1.length = L2.length →
      (∀ i (h1 : i < L1.length) (h2 : i < L2.length),
        (L1.get ⟨i, h1⟩).cost ≤ (L2.get ⟨i, h2⟩).cost) →
      treeWeight L1 ≤ treeWeight L2 := by
  intro L1
  induction L1 with
  | nil =>
    intro L2 hlen _
    have : L2 = [] := List.length_eq_zero.mp hlen.symm
    rw [this]
  | cons a L1 ih =>
    intro L2 hlen hpt
    cases L2 with
    | nil => simp at hlen
    | cons b L2 =>
      have h0 := hpt 0 (by simp) (by simp)
      have hrest := ih L2 (by simpa using hlen)
        (fun i hi1 hi2 => hpt (i + 1) (by simpa using hi1) (by simpa using hi2))
      show (List.map Edge.cost (a :: L1)).sum ≤ (List.map Edge.cost (b :: L2)).sum
      simp only [List.map_cons, List.sum_cons]
      exact add_le_add h0 hrest

end Tsp

namespace Tsp

/-- The greedy pointwise bound: the `i`-th cheapest edge of the Kruskal
forest is no more expensive than the `i`-th cheapest edge of any
spanning tree. -/
lemma kruskal_pointwise (n : Nat) (c : Cost) (hsym : Symm n c)
    (K ST : List Edge)
    (hKfor : IsForest K)
    (hKval : ∀ e ∈ K, e.head < n ∧ e.tail < n ∧ e.cost = c e.head e.tail)
    (hKsort : List.Pairwise (fun a b => a.cost ≤ b.cost) K)
    (hgreedy : ∀ u v, u < v → v < n → (⟨u, v, c u v⟩ : Edge) ∈ K ∨
      Reach (K.filter fun a => decide (a.cost ≤ c u v)) u v)
    (hSTfor : IsForest ST)
    (hSTval : ∀ e ∈ ST, e.head < n ∧ e.tail < n ∧ e.cost = c e.head e.tail)
    (hSTsort : List.Pairwise (fun a b => a.cost ≤ b.cost) ST) :
    ∀ i (h1 : i < K.length) (h2 : i < ST.length),
      (K.get ⟨i, h1⟩).cost ≤ (ST.get ⟨i, h2⟩).cost := by
  intro i h1 h2
  by_contra hgt
  push_neg at hgt
  have hF1for : IsForest (K.take i) :=
    isForest_prefix K (K.take i) (List.take_prefix i K) hKfor
  have hF2for : IsForest (ST.take (i + 1)) :=
    isForest_prefix ST (ST.take (i + 1)) (List.take_prefix (i + 1) ST) hSTfor
  have hF1len : (K.take i).length = i := by
    rw [List.length_take]
    omega
  have hF2len : (ST.take (i + 1)).length = i + 1 := by
    rw [List.length_take]
    omega
  obtain ⟨e, heF2, hnr⟩ := forest_exchange n (K.take i) (ST.take (i + 1))
    hF1for hF2for
    (fun f hf =>
      ⟨(hKval f (List.mem_of_mem_take hf)).1,
       (hKval f (List.mem_of_mem_take hf)).2.1⟩)
    (fun f hf =>
      ⟨(hSTval f (List.mem_of_mem_take hf)).1,
       (hSTval f (List.mem_of_mem_take hf)).2.1⟩)
    (by omega)
  have heST : e ∈ ST := List.mem_of_mem_take heF2
  have hecost : e.cost ≤ (ST.get ⟨i, h2⟩).cost := by
    have htake : ST.take (i + 1) = ST.take i ++ [ST.get ⟨i, h2⟩] := by
      rw [List.take_succ]
      congr 1
      rw [List.getElem?_eq_getElem h2]
      rfl
    rw [htake] at heF2
    rcases List.mem_append.mp heF2 with h | h
    · have hpw : List.Pairwise (fun a b : Edge => a.cost ≤ b.cost)
          (ST.take i ++ [ST.get ⟨i, h2⟩]) := by
        rw [← htake]
        exact hSTsort.sublist (List.take_sublist _ _)
      exact (List.pairwise_append.mp hpw).2.2 e h _ (by simp)
    · have : e = ST.get ⟨i, h2⟩ := by simpa using h
      rw [this]
  have hene : e.head ≠ e.tail := isForest_endpoint_ne _ e hnr
  obtain ⟨heh, het, hec⟩ := hSTval e heST
  -- the ordered pair of endpoints of `e`
  have hkey : ∀ u v, u < v → v < n → c u v = e.cost →
      ¬ Reach (K.take i) u v → False := by
    intro u v huv hv hcuv hnruv
    have hmemtake : ∀ a, a ∈ K → a.cost < (K.get ⟨i, h1⟩).cost → a ∈ K.take i := by
      intro a ha hacost
      have hsplit : a ∈ K.take i ++ K.drop i := by
        rw [List.take_append_drop]
        exact ha
      rcases List.mem_append.mp hsplit with h | h
      · exact h
      · exfalso
        rw [List.drop_eq_getElem_cons h1] at h
        rcases List.mem_cons.mp h with h | h
        · rw [h] at hacost
          exact lt_irrefl (K.get ⟨i, h1⟩).cost hacost
        · have hpw : List.Pairwise (fun a b : Edge => a.cost ≤ b.cost) (K.drop i) :=
            hKsort.sublist (List.drop_sublist _ _)
          rw [List.drop_eq_getElem_cons h1] at hpw
          have := (List.pairwise_cons.mp hpw).1 a h
          have hgetEq : (K.get ⟨i, h1⟩).cost = K[i].cost := rfl
          rw [hgetEq] at hacost
          exact absurd this (by exact not_le.mpr hacost)
    rcases hgreedy u v huv hv with h | h
    · have hintake : (⟨u, v, c u v⟩ : Edge) ∈ K.take i := by
        apply hmemtake _ h
        show c u v < (K.get ⟨i, h1⟩).cost
        rw [hcuv]
        exact lt_of_le_of_lt hecost hgt
      exact hnruv (Relation.EqvGen.rel _ _ ⟨_, hintake, Or.inl ⟨rfl, rfl⟩⟩)
    · apply hnruv
      refine reach_mono _ _ ?_ h
      intro g hg
      rw [List.mem_filter] at hg
      apply hmemtake g hg.1
      have hgc : g.cost ≤ c u v := of_decide_eq_true hg.2
      rw [hcuv] at hgc
      exact lt_of_le_of_lt hgc (lt_of_le_of_lt hecost hgt)
  rcases Nat.lt_or_ge e.head e.tail with hor | hor
  · exact hkey e.head e.tail hor het hec.symm hnr
  · have hor' : e.tail < e.head := by omega
    refine hkey e.tail e.head hor' heh ?_ (fun hre => hnr (reach_symm _ hre))
    rw [hsym e.tail het e.head heh]
    exact hec.symm

end Tsp

namespace Tsp

/-- C3: for every `n ≥ 1` and symmetric cost matrix, `mst` returns
exactly `n - 1` edges forming an acyclic subgraph that connects all `n`
vertices, and its total weight is minimal among all spanning trees of
the complete graph on these costs. -/
theorem c3_mst_minimum_spanning_tree (n : Nat) (hn : 1 ≤ n) (c : Cost)
    (hsym : Symm n c) :
    ∃ K, mst n c = some K ∧ K.length = n - 1 ∧ SpanningTree n c K ∧
      ∀ T, SpanningTree n c T → treeWeight K ≤ treeWeight T := by
  obtain ⟨K, hK, hlen, hfor, hval, hspan, hsort, hgreedy⟩ := mst_spec n hn c
  refine ⟨K, hK, hlen, ⟨hval, hfor, hspan⟩, ?_⟩
  intro T hT
  have hTlen := spanningTree_length n hn c T hT
  have hperm := sortEdges_perm T
  have hSTfor : IsForest (sortEdges T) :=
    isForest_perm (sortEdges T) T hperm.symm hT.2.1
  have hSTval : ∀ e ∈ sortEdges T,
      e.head < n ∧ e.tail < n ∧ e.cost = c e.head e.tail :=
    fun e he => hT.1 e (hperm.mem_iff.mp he)
  have hSTsort := sortEdges_sorted T
  have hSTlen : (sortEdges T).length = n - 1 := by
    rw [hperm.length_eq, hTlen]
  have hpt := kruskal_pointwise n c hsym K (sortEdges T) hfor hval hsort hgreedy
    hSTfor hSTval hSTsort
  have hle := treeWeight_le_of_pointwise K (sortEdges T) (by omega) hpt
  rw [treeWeight_perm (sortEdges T) T hperm] at hle
  exact hle

/-- C3 witness: the two-vertex complete graph. -/
theorem c3_mst_minimum_spanning_tree_witness :
    1 ≤ 2 ∧ Symm 2 (matOf [[0, 5], [5, 0]]) ∧
      (∃ K, mst 2 (matOf [[0, 5], [5, 0]]) = some K ∧ K.length = 2 - 1 ∧
        SpanningTree 2 (matOf [[0, 5], [5, 0]]) K ∧
        ∀ T, SpanningTree 2 (matOf [[0, 5], [5, 0]]) T →
          treeWeight K ≤ treeWeight T) :=
  ⟨by decide, by with_unfolding_all decide,
    c3_mst_minimum_spanning_tree 2 (by decide) (matOf [[0, 5], [5, 0]])
      (by with_unfolding_all decide)⟩

end Tsp

namespace Tsp

/-! ## Adjacency lists of the spanning tree -/

lemma edgeRel_symm (K : List Edge) {x y : Nat} (h : edgeRel K x y) :
    edgeRel K y x := by
  obtain ⟨e, he, hor⟩ := h
  exact ⟨e, he, hor.symm⟩

lemma edgeRel_cons (e : Edge) (K : List Edge) (x y : Nat) :
    edgeRel (e :: K) x y ↔
      ((e.head = x ∧ e.tail = y) ∨ (e.head = y ∧ e.tail = x)) ∨ edgeRel K x y := by
  constructor
  · rintro ⟨f, hf, hor⟩
    rcases List.mem_cons.mp hf with hfe | hf'
    · subst hfe
      exact Or.inl hor
    · exact Or.inr ⟨f, hf', hor⟩
  · rintro (hor | ⟨f, hf, hor⟩)
    · exact ⟨e, List.mem_cons_self e K, hor⟩
    · exact ⟨f, List.mem_cons_of_mem e hf, hor⟩

lemma adjStep_length (adj : List (List Nat)) (e : Edge) :
    (adjStep adj e).length = adj.length := by
  unfold adjStep
  simp

lemma adjStep_mem (adj : List (List Nat)) (e : Edge)
    (hh : e.head < adj.length) (ht : e.tail < adj.length) (u v : Nat) :
    v ∈ (adjStep adj e).getD u [] ↔
      v ∈ adj.getD u [] ∨
        ((e.head = u ∧ e.tail = v) ∨ (e.tail = u ∧ e.head = v)) := by
  unfold adjStep
  set a1 := adj.set e.head (adj.getD e.head [] ++ [e.tail]) with ha1
  have hlen1 : a1.length = adj.length := by simp [ha1]
  have hmem1 : ∀ w z, z ∈ a1.getD w [] ↔
      z ∈ adj.getD w [] ∨ (e.head = w ∧ e.tail = z) := by
    intro w z
    by_cases hw : w = e.head
    · rw [hw, ha1, getD_set_self adj e.head [] _ hh]
      simp only [List.mem_append, List.mem_singleton]
      constructor
      · rintro (h | h)
        · exact Or.inl h
        · simp [h]
      · rintro (h | ⟨h1, h2⟩)
        · exact Or.inl h
        · exact Or.inr h2.symm
    · rw [ha1, getD_set_ne adj e.head w [] _ (fun h => hw h.symm)]
      constructor
      · exact Or.inl
      · rintro (h | ⟨h1, h2⟩)
        · exact h
        · exact absurd h1 (fun hc => hw hc.symm)
  by_cases hu : u = e.tail
  · rw [hu, getD_set_self a1 e.tail [] _ (by omega)]
    simp only [List.mem_append, List.mem_singleton, hmem1]
    constructor
    · rintro ((h | ⟨h1, h2⟩) | h)
      · exact Or.inl h
      · exact Or.inr (Or.inl ⟨h1, h2⟩)
      · simp [h]
    · rintro (h | ⟨h1, h2⟩ | ⟨h1, h2⟩)
      · exact Or.inl (Or.inl h)
      · exact Or.inl (Or.inr ⟨h1, h2⟩)
      · exact Or.inr h2.symm
  · rw [getD_set_ne a1 e.tail u [] _ (fun h => hu h.symm), hmem1]
    constructor
    · rintro (h | ⟨h1, h2⟩)
      · exact Or.inl h
      · exact Or.inr (Or.inl ⟨h1, h2⟩)
    · rintro (h | ⟨h1, h2⟩ | ⟨h1, h2⟩)
      · exact Or.inl h
      · exact Or.inr ⟨h1, h2⟩
      · exact absurd h1 (fun hc => hu hc.symm)

lemma buildAdj_foldl (n : Nat) :
    ∀ (K : List Edge) (adj0 : List (List Nat)), adj0.length = n →
      (∀ e ∈ K, e.head < n ∧ e.tail < n) →
      (K.foldl adjStep adj0).length = n ∧
      (∀ u v, v ∈ (K.foldl adjStep adj0).getD u [] ↔
        v ∈ adj0.getD u [] ∨ edgeRel K u v) := by
  intro K
  induction K with
  | nil =>
    intro adj0 hlen _
    refine ⟨hlen, fun u v => ?_⟩
    simp only [List.foldl_nil]
    constructor
    · exact Or.inl
    · rintro (h | ⟨e, he, _⟩)
      · exact h
      · cases he
  | cons e K ih =>
    intro adj0 hlen hval
    have he := hval e (List.mem_cons_self e K)
    have hlen1 : (adjStep adj0 e).length = n := by
      rw [adjStep_length, hlen]
    obtain ⟨hL, hM⟩ := ih (adjStep adj0 e) hlen1
      (fun f hf => hval f (List.mem_cons_of_mem e hf))
    refine ⟨hL, fun u v => ?_⟩
    rw [List.foldl_cons, hM u v,
      adjStep_mem adj0 e (by omega) (by omega) u v, edgeRel_cons]
    tauto

lemma buildAdj_mem (n : Nat) (K : List Edge)
    (hval : ∀ e ∈ K, e.head < n ∧ e.tail < n) (u v : Nat) :
    v ∈ (buildAdj n K).getD u [] ↔ edgeRel K u v := by
  obtain ⟨_, hM⟩ := buildAdj_foldl n K (List.replicate n [])
    (List.length_replicate n []) hval
  rw [buildAdj, hM u v]
  constructor
  · rintro (h | h)
    · exfalso
      rcases Nat.lt_or_ge u n with hu | hu
      · rw [getD_of_lt _ _ _ (by simpa using hu)] at h
        simp at h
      · rw [getD_of_le _ _ _ (by simpa using hu)] at h
        cases h
    · exact h
  · exact Or.inr

lemma buildAdj_length (n : Nat) (K : List Edge)
    (hval : ∀ e ∈ K, e.head < n ∧ e.tail < n) : (buildAdj n K).length = n :=
  (buildAdj_foldl n K (List.replicate n []) (List.length_replicate n []) hval).1

end Tsp

namespace Tsp

/-! ## Counting lemmas for the traversal potential -/

lemma sum_map_update (u : Nat) (f g : Nat → Nat)
    (hfg : ∀ v, v ≠ u → g v = f v) (hgu : g u = f u + 1) :
    ∀ l : List Nat, l.Nodup → u ∈ l → (l.map g).sum = (l.map f).sum + 1 := by
  intro l
  induction l with
  | nil => intro _ h; cases h
  | cons a t ih =>
    intro hnd hu
    rw [List.map_cons, List.map_cons, List.sum_cons, List.sum_cons]
    rcases List.mem_cons.mp hu with hau | hu'
    · have hut : u ∉ t := by
        rw [hau]
        exact (List.nodup_cons.mp hnd).1
      have hmap : t.map g = t.map f :=
        List.map_congr_left fun v hv => hfg v (fun he => hut (he ▸ hv))
      rw [hmap, ← hau, hgu]
      omega
    · have hau : a ≠ u := fun he => (List.nodup_cons.mp hnd).1 (he ▸ hu')
      rw [hfg a hau, ih (List.nodup_cons.mp hnd).2 hu']
      omega

lemma sum_map_filter_flip (u : Nat) (f : Nat → Nat) (P Q : Nat → Bool)
    (hPQ : ∀ v, v ≠ u → Q v = P v) (hPu : P u = true) (hQu : Q u = false) :
    ∀ l : List Nat, l.Nodup → u ∈ l →
      ((l.filter Q).map f).sum + f u = ((l.filter P).map f).sum := by
  intro l
  induction l with
  | nil => intro _ h; cases h
  | cons a t ih =>
    intro hnd hu
    rw [List.filter_cons, List.filter_cons]
    rcases List.mem_cons.mp hu with hau | hu'
    · have hut : u ∉ t := by
        rw [hau]
        exact (List.nodup_cons.mp hnd).1
      have hfilt : t.filter Q = t.filter P :=
        List.filter_congr fun v hv => hPQ v (fun he => hut (he ▸ hv))
      rw [hau] at hPu hQu
      simp only [hPu, hQu, if_true, Bool.false_eq_true, if_false, hfilt,
        List.map_cons, List.sum_cons]
      rw [hau]
      omega
    · have hau : a ≠ u := fun he => (List.nodup_cons.mp hnd).1 (he ▸ hu')
      have := ih (List.nodup_cons.mp hnd).2 hu'
      rw [hPQ a hau]
      by_cases hPa : P a = true
      · rw [hPa]
        simp only [if_true, List.map_cons, List.sum_cons]
        omega
      · rw [Bool.not_eq_true] at hPa
        rw [hPa]
        simpa using this

lemma adjDegSum_adjStep (n : Nat) (adj : List (List Nat)) (e : Edge)
    (hlen : adj.length = n) (hh : e.head < n) (ht : e.tail < n) :
    adjDegSum n (adjStep adj e) = adjDegSum n adj + 2 := by
  unfold adjStep adjDegSum
  set a1 := adj.set e.head (adj.getD e.head [] ++ [e.tail]) with ha1
  have hlen1 : a1.length = n := by simp [ha1, hlen]
  have h1 : ((List.range n).map fun v => (a1.getD v []).length).sum =
      ((List.range n).map fun v => (adj.getD v []).length).sum + 1 := by
    refine sum_map_update e.head _ _ ?_ ?_ (List.range n) (List.nodup_range n)
      (List.mem_range.mpr hh)
    · intro v hv
      rw [ha1, getD_set_ne adj e.head v [] _ (fun h => hv h.symm)]
    · rw [ha1, getD_set_self adj e.head [] _ (by omega)]
      simp
  have h2 : ((List.range n).map fun v =>
      ((a1.set e.tail (a1.getD e.tail [] ++ [e.head])).getD v []).length).sum =
      ((List.range n).map fun v => (a1.getD v []).length).sum + 1 := by
    refine sum_map_update e.tail _ _ ?_ ?_ (List.range n) (List.nodup_range n)
      (List.mem_range.mpr ht)
    · intro v hv
      rw [getD_set_ne a1 e.tail v [] _ (fun h => hv h.symm)]
    · rw [getD_set_self a1 e.tail [] _ (by omega)]
      simp
  rw [h2, h1]

lemma adjDegSum_foldl (n : Nat) :
    ∀ (K : List Edge) (adj0 : List (List Nat)), adj0.length = n →
      (∀ e ∈ K, e.head < n ∧ e.tail < n) →
      adjDegSum n (K.foldl adjStep adj0) = adjDegSum n adj0 + 2 * K.length := by
  intro K
  induction K with
  | nil => intro adj0 _ _; simp
  | cons e K ih =>
    intro adj0 hlen hval
    have he := hval e (List.mem_cons_self e K)
    rw [List.foldl_cons,
      ih (adjStep adj0 e) (by rw [adjStep_length, hlen])
        (fun f hf => hval f (List.mem_cons_of_mem e hf)),
      adjDegSum_adjStep n adj0 e hlen he.1 he.2]
    simp
    omega

lemma adjDegSum_buildAdj (n : Nat) (K : List Edge)
    (hval : ∀ e ∈ K, e.head < n ∧ e.tail < n) :
    adjDegSum n (buildAdj n K) = 2 * K.length := by
  rw [buildAdj, adjDegSum_foldl n K _ (List.length_replicate n []) hval]
  have hz : adjDegSum n (List.replicate n ([] : List Nat)) = 0 := by
    unfold adjDegSum
    have : ∀ v ∈ List.range n,
        ((List.replicate n ([] : List Nat)).getD v []).length = 0 := by
      intro v hv
      rw [getD_of_lt _ _ _ (by simpa using List.mem_range.mp hv)]
      simp
    rw [List.map_congr_left this]
    simp
  omega

lemma getD_replicate_false (n v : Nat) :
    (List.replicate n false).getD v false = false := by
  by_cases hv : v < n
  · rw [getD_of_lt _ _ _ (by simpa using hv)]
    simp
  · rw [getD_of_le _ _ _ (by simpa using hv)]

lemma unvisitedDeg_all (n : Nat) (adj : List (List Nat)) :
    unvisitedDeg n adj (List.replicate n false) = adjDegSum n adj := by
  unfold unvisitedDeg adjDegSum
  have : (List.range n).filter
      (fun v => !((List.replicate n false).getD v false)) = List.range n := by
    rw [List.filter_eq_self]
    intro v _
    rw [getD_replicate_false]
    rfl
  rw [this]

lemma unvisitedDeg_set_true (n : Nat) (adj : List (List Nat))
    (visited : List Bool) (u : Nat) (hu : u < n) (hlen : visited.length = n)
    (huv : visited.getD u false = false) :
    unvisitedDeg n adj (visited.set u true) + (adj.getD u []).length =
      unvisitedDeg n adj visited := by
  unfold unvisitedDeg
  exact sum_map_filter_flip u _ _ _
    (fun v hv => by rw [getD_set_ne visited u v false _ (fun h => hv h.symm)])
    (by rw [huv]; rfl)
    (by rw [getD_set_self visited u _ _ (by omega)]; rfl)
    (List.range n) (List.nodup_range n) (List.mem_range.mpr hu)

/-! ## Misc list lemmas for the traversal -/

lemma nodup_lt_length_le (n : Nat) (l : List Nat) (hnd : l.Nodup)
    (hlt : ∀ v ∈ l, v < n) : l.length ≤ n := by
  have h1 : l.toFinset.card = l.length := List.toFinset_card_of_nodup hnd
  have h2 : l.toFinset ⊆ Finset.range n := by
    intro v hv
    rw [Finset.mem_range]
    exact hlt v (List.mem_toFinset.mp hv)
  have h3 := Finset.card_le_card h2
  rw [h1, Finset.card_range] at h3
  exact h3

lemma nodup_full_mem (n : Nat) (l : List Nat) (hnd : l.Nodup)
    (hlt : ∀ v ∈ l, v < n) (hlen : n ≤ l.length) : ∀ v, v < n → v ∈ l := by
  have h1 : l.toFinset.card = l.length := List.toFinset_card_of_nodup hnd
  have h2 : l.toFinset ⊆ Finset.range n := by
    intro v hv
    rw [Finset.mem_range]
    exact hlt v (List.mem_toFinset.mp hv)
  have h3 : l.toFinset = Finset.range n := by
    apply Finset.eq_of_subset_of_card_le h2
    rw [h1, Finset.card_range]
    exact hlen
  intro v hv
  rw [← List.mem_toFinset, h3, Finset.mem_range]
  exact hv

lemma headD_append_left {α : Type} (l1 l2 : List α) (d : α) (h : l1 ≠ []) :
    (l1 ++ l2).headD d = l1.headD d := by
  cases l1 with
  | nil => exact absurd rfl h
  | cons a t => rfl

lemma edgeRel_lt (n : Nat) (K : List Edge)
    (hval : ∀ e ∈ K, e.head < n ∧ e.tail < n) {u v : Nat}
    (h : edgeRel K u v) : u < n ∧ v < n := by
  obtain ⟨e, he, hor⟩ := h
  obtain ⟨h1, h2⟩ := hval e he
  rcases hor with ⟨hh, ht⟩ | ⟨hh, ht⟩
  · rw [← hh, ← ht]
    exact ⟨h1, h2⟩
  · rw [← hh, ← ht]
    exact ⟨h2, h1⟩

lemma reach_boundary (K : List Edge) (P : Nat → Prop) :
    ∀ x y, Reach K x y → ((P x ∧ ¬ P y) ∨ (P y ∧ ¬ P x)) →
      ∃ a b, edgeRel K a b ∧ P a ∧ ¬ P b := by
  intro x y h
  induction h with
  | rel a b hab =>
    rintro (⟨h1, h2⟩ | ⟨h1, h2⟩)
    · exact ⟨a, b, hab, h1, h2⟩
    · exact ⟨b, a, edgeRel_symm K hab, h1, h2⟩
  | refl a =>
    rintro (⟨h1, h2⟩ | ⟨h1, h2⟩) <;> exact absurd h1 h2
  | symm a b _ ih =>
    intro hc
    apply ih
    tauto
  | trans a b d _ _ ih1 ih2 =>
    intro hc
    by_cases hPb : P b
    · rcases hc with ⟨h1, h2⟩ | ⟨h1, h2⟩
      · exact ih2 (Or.inl ⟨hPb, h2⟩)
      · exact ih1 (Or.inr ⟨hPb, h2⟩)
    · rcases hc with ⟨h1, h2⟩ | ⟨h1, h2⟩
      · exact ih1 (Or.inl ⟨h1, hPb⟩)
      · exact ih2 (Or.inr ⟨h1, hPb⟩)

end Tsp

namespace Tsp

/-- One-step unfolding of the traversal loop. -/
lemma dfsLoop_succ (adj : List (List Nat)) (n fuel : Nat) (visited : List Bool)
    (stack tour : List Nat) :
    dfsLoop adj n (fuel + 1) visited stack tour =
      if n ≤ tour.length then some (tour ++ [0])
      else match stack with
        | [] => none
        | u :: rest =>
          if visited.getD u true then dfsLoop adj n fuel visited rest tour
          else dfsLoop adj n fuel (visited.set u true)
            ((adj.getD u []).reverse ++ rest) (tour ++ [u]) := rfl

/-- Correctness of the traversal loop: from any state satisfying the
invariants (visited set matches the tour, the tour starts at 0 and has no
repeats, every edge out of a visited vertex leads to a visited vertex or
into the stack, and the fuel exceeds the stack size plus the unvisited
degree), the loop returns a Hamiltonian tour. -/
lemma dfsLoop_spec (n : Nat) (hn : 1 ≤ n) (K : List Edge)
    (hval : ∀ e ∈ K, e.head < n ∧ e.tail < n) (hspan : Spans n K) :
    ∀ (fuel : Nat) (visited : List Bool) (stack tour : List Nat),
      visited.length = n →
      (∀ u ∈ stack, u < n) →
      (∀ v ∈ tour, v < n) →
      tour.Nodup →
      (∀ v, v < n → (visited.getD v false = true ↔ v ∈ tour)) →
      visited.getD 0 false = true →
      tour.headD 1 = 0 →
      (∀ u v, edgeRel K u v → visited.getD u false = true →
        visited.getD v false = true ∨ v ∈ stack) →
      stack.length + unvisitedDeg n (buildAdj n K) visited < fuel →
      ∃ t, dfsLoop (buildAdj n K) n fuel visited stack tour = some t ∧
        IsTour n t := by
  intro fuel
  induction fuel with
  | zero =>
    intro _ _ _ _ _ _ _ _ _ _ _ hfuel
    omega
  | succ fuel ihf =>
    intro visited stack tour hvlen hstk htlt htnd hcorr hv0 hhead hC hfuel
    have htne : tour ≠ [] := by
      intro h
      rw [h] at hhead
      exact absurd hhead (by simp)
    by_cases hdone : n ≤ tour.length
    · rw [dfsLoop_succ, if_pos hdone]
      refine ⟨tour ++ [0], rfl, ?_, ?_, ?_, ?_⟩
      · have := nodup_lt_length_le n tour htnd htlt
        simp
        omega
      · rw [headD_append_left tour [0] 1 htne]
        exact hhead
      · simp
      · intro v hv
        have hlen : tour.length = n :=
          le_antisymm (nodup_lt_length_le n tour htnd htlt) hdone
        have hmem : v ∈ tour :=
          nodup_full_mem n tour htnd htlt (by omega) v hv
        have htake : (tour ++ [0]).take n = tour := by
          rw [← hlen]
          exact List.take_left tour [0]
        rw [htake]
        exact List.count_eq_one_of_mem htnd hmem
    · cases stack with
      | nil =>
        exfalso
        have hw : ∃ w, w < n ∧ ¬ (visited.getD w false = true) := by
          by_contra hall
          push_neg at hall
          have hsub : Finset.range n ⊆ tour.toFinset := by
            intro v hv
            rw [List.mem_toFinset]
            exact (hcorr v (Finset.mem_range.mp hv)).mp
              (hall v (Finset.mem_range.mp hv))
          have hcard := Finset.card_le_card hsub
          rw [Finset.card_range, List.toFinset_card_of_nodup htnd] at hcard
          omega
        obtain ⟨w, hwn, hwv⟩ := hw
        obtain ⟨a, b, hab, hPa, hPb⟩ := reach_boundary K
          (fun v => visited.getD v false = true) 0 w
          (hspan 0 (by omega) w hwn) (Or.inl ⟨hv0, hwv⟩)
        rcases hC a b hab hPa with h | h
        · exact hPb h
        · cases h
      | cons u rest =>
        have hun : u < n := hstk u (List.mem_cons_self u rest)
        have hud : visited.getD u true = visited.getD u false := by
          rw [getD_of_lt _ _ _ (by omega), getD_of_lt _ _ _ (by omega)]
        rw [dfsLoop_succ, if_neg hdone]
        dsimp only
        by_cases huvis : visited.getD u false = true
        · rw [if_pos (by rw [hud]; exact huvis)]
          apply ihf visited rest tour hvlen
            (fun v hv => hstk v (List.mem_cons_of_mem u hv))
            htlt htnd hcorr hv0 hhead
          · intro a b hab hPa
            rcases hC a b hab hPa with h | h
            · exact Or.inl h
            · rcases List.mem_cons.mp h with hbu | hbr
              · exact Or.inl (hbu ▸ huvis)
              · exact Or.inr hbr
          · rw [List.length_cons] at hfuel
            omega
        · have huvF : visited.getD u false = false := by
            simpa using huvis
          rw [if_neg (by rw [hud]; simpa using huvis)]
          have hadj : ∀ v, v ∈ (buildAdj n K).getD u [] ↔ edgeRel K u v :=
            fun v => buildAdj_mem n K hval u v
          have hunt : u ∉ tour := fun h => huvis ((hcorr u hun).mpr h)
          have hu0 : u ≠ 0 := by
            intro h
            rw [h, hv0] at huvF
            cases huvF
          apply ihf (visited.set u true)
            (((buildAdj n K).getD u []).reverse ++ rest) (tour ++ [u])
          · rw [List.length_set]
            exact hvlen
          · intro v hv
            rcases List.mem_append.mp hv with h | h
            · exact (edgeRel_lt n K hval ((hadj v).mp (List.mem_reverse.mp h))).2
            · exact hstk v (List.mem_cons_of_mem u h)
          · intro v hv
            rcases List.mem_append.mp hv with h | h
            · exact htlt v h
            · rw [List.mem_singleton.mp h]
              exact hun
          · refine htnd.append (List.nodup_singleton u) ?_
            intro a ha hb
            rw [List.mem_singleton.mp hb] at ha
            exact hunt ha
          · intro v hv
            by_cases hvu : v = u
            · rw [hvu, getD_set_self visited u false true (by omega)]
              simp
            · rw [getD_set_ne visited u v false true (fun h => hvu h.symm)]
              constructor
              · intro h
                exact List.mem_append_left _ ((hcorr v hv).mp h)
              · intro h
                rcases List.mem_append.mp h with h | h
                · exact (hcorr v hv).mpr h
                · exact absurd (List.mem_singleton.mp h) hvu
          · rw [getD_set_ne visited u 0 false true hu0]
            exact hv0
          · rw [headD_append_left tour [u] 1 htne]
            exact hhead
          · intro a b hab hPa
            by_cases hbu : b = u
            · rw [hbu, getD_set_self visited u false true (by omega)]
              exact Or.inl rfl
            · rw [getD_set_ne visited u b false true (fun h => hbu h.symm)]
              by_cases hau : a = u
              · refine Or.inr (List.mem_append_left _ ?_)
                rw [List.mem_reverse]
                exact (hadj b).mpr (hau ▸ hab)
              · rw [getD_set_ne visited u a false true
                  (fun h => hau h.symm)] at hPa
                rcases hC a b hab hPa with h | h
                · exact Or.inl h
                · rcases List.mem_cons.mp h with h | h
                  · exact absurd h hbu
                  · exact Or.inr (List.mem_append_right _ h)
          · have hflip := unvisitedDeg_set_true n (buildAdj n K) visited u
              hun hvlen huvF
            rw [List.length_append, List.length_reverse, List.length_cons]
              at *
            omega

end Tsp

namespace Tsp

/-- The approximate solver always returns a Hamiltonian cycle. -/
lemma metricTsp_tour (n : Nat) (hn : 1 ≤ n) (c : Cost) :
    ∃ t, metricTsp n c = some t ∧ IsTour n t := by
  obtain ⟨K, hK, hKlen, hKfor, hKval, hKspan, hKsorted, hKcomp⟩ := mst_spec n hn c
  have hval : ∀ e ∈ K, e.head < n ∧ e.tail < n :=
    fun e he => ⟨(hKval e he).1, (hKval e he).2.1⟩
  have hlenrep : (List.replicate n false).length = n := List.length_replicate n false
  have h0rep : (List.replicate n false).getD 0 true = false := by
    rw [getD_of_lt _ _ _ (by omega)]
    simp
  have h1 : dfsLoop (buildAdj n K) n (2 * n + 2) (List.replicate n false) [0] [] =
      dfsLoop (buildAdj n K) n (2 * n + 1) ((List.replicate n false).set 0 true)
        (((buildAdj n K).getD 0 []).reverse ++ []) ([] ++ [0]) := by
    rw [show 2 * n + 2 = (2 * n + 1) + 1 from rfl, dfsLoop_succ]
    rw [if_neg (by simp; omega)]
    dsimp only
    rw [if_neg (by rw [h0rep]; simp)]
  unfold metricTsp
  rw [hK]
  dsimp only
  rw [h1]
  apply dfsLoop_spec n hn K hval hKspan (2 * n + 1)
  · rw [List.length_set]
    exact hlenrep
  · intro v hv
    rw [List.append_nil, List.mem_reverse] at hv
    exact (edgeRel_lt n K hval ((buildAdj_mem n K hval 0 v).mp hv)).2
  · intro v hv
    simp only [List.nil_append, List.mem_singleton] at hv
    omega
  · simp
  · intro v hv
    by_cases hv0 : v = 0
    · rw [hv0, getD_set_self _ _ _ _ (by omega)]
      simp
    · rw [getD_set_ne _ _ _ _ _ (fun h => hv0 h.symm), getD_replicate_false]
      simp [hv0]
  · rw [getD_set_self _ _ _ _ (by omega)]
  · rfl
  · intro a b hab hPa
    by_cases ha0 : a = 0
    · refine Or.inr (List.mem_append_left _ ?_)
      rw [List.mem_reverse]
      exact (buildAdj_mem n K hval 0 b).mpr (ha0 ▸ hab)
    · rw [getD_set_ne _ _ _ _ _ (fun h => ha0 h.symm),
        getD_replicate_false] at hPa
      cases hPa
  · have hflip := unvisitedDeg_set_true n (buildAdj n K)
      (List.replicate n false) 0 (by omega) hlenrep (getD_replicate_false n 0)
    have htotal := unvisitedDeg_all n (buildAdj n K)
    have hdeg := adjDegSum_buildAdj n K hval
    simp only [List.append_nil, List.length_reverse, List.nil_append,
      List.length_singleton]
    omega

/-- C6: sanity of the approximate solver — for every n ≥ 1 and every cost
matrix, `metric_tsp` returns a tour that starts and ends at vertex 0 and
visits every vertex exactly once (a Hamiltonian cycle on [0, n)). -/
theorem c6_metric_tsp_hamiltonian (n : Nat) (hn : 1 ≤ n) (c : Cost) :
    ∃ t, metricTsp n c = some t ∧ IsTour n t :=
  metricTsp_tour n hn c

/-- Witness for C6 at n = 4 on the demo matrix. -/
theorem c6_metric_tsp_hamiltonian_witness :
    ∃ t, metricTsp 4 demoMat = some t ∧ IsTour 4 t :=
  c6_metric_tsp_hamiltonian 4 (by decide) demoMat

end Tsp

namespace Tsp

/-! ## Helper lemmas for the 2-approximation bound -/

lemma nonneg_of_symm_triangle (n : Nat) (c : Cost) (hsym : Symm n c)
    (htri : Triangle n c) : NonNeg n c := by
  intro i hi j hj
  have h0 : 0 ≤ c i i := by
    have := htri i hi i hi i hi
    linarith
  have h2 : c i i ≤ c i j + c j i := htri i hi j hj i hi
  rw [hsym j hj i hi] at h2
  linarith

lemma tourCost_nil (c : Cost) : tourCost c [] = 0 := rfl

lemma tourCost_single (c : Cost) (u : Nat) : tourCost c [u] = 0 := rfl

lemma tourCost_cons_cons (c : Cost) (u v : Nat) (l : List Nat) :
    tourCost c (u :: v :: l) = c u v + tourCost c (v :: l) := rfl

lemma tourCost_cons (c : Cost) (u : Nat) (l : List Nat) (h : l ≠ []) :
    tourCost c (u :: l) = c u (l.headD 0) + tourCost c l := by
  cases l with
  | nil => exact absurd rfl h
  | cons v r => rfl

lemma tourCost_snoc (c : Cost) :
    ∀ (tour : List Nat) (v : Nat), tour ≠ [] →
      tourCost c (tour ++ [v]) = tourCost c tour + c (tour.getLastD 0) v := by
  intro tour
  induction tour with
  | nil => intro v h; exact absurd rfl h
  | cons x t ih =>
    intro v _
    cases t with
    | nil => simp [tourCost]
    | cons y r =>
      have h1 : (x :: y :: r) ++ [v] = x :: ((y :: r) ++ [v]) := rfl
      have h2 : (y :: r) ++ [v] = y :: (r ++ [v]) := rfl
      rw [h1, h2, tourCost_cons_cons, ← h2, ih v (by simp),
        tourCost_cons_cons]
      have h3 : (x :: y :: r).getLastD 0 = (y :: r).getLastD 0 := by
        rw [List.getLastD_eq_getLast?, List.getLastD_eq_getLast?,
          List.getLast?_cons_cons]
      rw [h3]
      ring

lemma headD_append_eq {α : Type} (U Q : List α) (q d : α) :
    (U ++ (q :: Q)).headD d = (U ++ [q]).headD d := by
  cases U with
  | nil => rfl
  | cons u U' => rfl

lemma tourCost_append (c : Cost) :
    ∀ (U Q : List Nat), Q ≠ [] →
      tourCost c (U ++ Q) =
        tourCost c (U ++ [Q.headD 0]) + tourCost c Q := by
  intro U
  induction U with
  | nil =>
    intro Q hQ
    cases Q with
    | nil => exact absurd rfl hQ
    | cons q Q' => simp [tourCost_single]
  | cons u U' ih =>
    intro Q hQ
    cases Q with
    | nil => exact absurd rfl hQ
    | cons q Q' =>
      cases U' with
      | nil => simp [tourCost_cons_cons, tourCost_single]
      | cons w U'' =>
        simp only [List.cons_append] at ih ⊢
        rw [tourCost_cons_cons, tourCost_cons_cons, ih (q :: Q') (by simp)]
        ring

lemma chain_bound (n : Nat) (c : Cost) (htri : Triangle n c) :
    ∀ (U : List Nat) (a y : Nat), (∀ v ∈ U, v < n) → a < n → y < n →
      c ((U ++ [a]).headD 0) y ≤ tourCost c (U ++ [a]) + c a y := by
  intro U
  induction U with
  | nil =>
    intro a y _ _ _
    simp [tourCost_single]
  | cons u U' ih =>
    intro a y hU ha hy
    have hu : u < n := hU u (List.mem_cons_self u U')
    have hm : (U' ++ [a]).headD 0 < n := by
      cases U' with
      | nil => exact ha
      | cons w U'' => exact hU w (List.mem_cons_of_mem u (List.mem_cons_self w U''))
    have h1 : (u :: U') ++ [a] = u :: (U' ++ [a]) := rfl
    have hne : U' ++ [a] ≠ [] := by simp
    rw [h1, List.headD_cons, tourCost_cons c u (U' ++ [a]) hne]
    have htr := htri u hu ((U' ++ [a]).headD 0) hm y hy
    have hih := ih a y (fun v hv => hU v (List.mem_cons_of_mem u hv)) ha hy
    linarith

lemma getLastD_irrel {α : Type} :
    ∀ (l : List α) (d d' : α), l ≠ [] → l.getLastD d = l.getLastD d' := by
  intro l
  induction l with
  | nil => intro d d' h; exact absurd rfl h
  | cons x t ih =>
    intro d d' _
    cases t with
    | nil => rfl
    | cons y r => rfl

lemma getLastD_mem {α : Type} :
    ∀ (l : List α) (d : α), l ≠ [] → l.getLastD d ∈ l := by
  intro l
  induction l with
  | nil => intro d h; exact absurd rfl h
  | cons x t ih =>
    intro d _
    cases t with
    | nil => simp
    | cons y r =>
      have h1 : (x :: y :: r).getLastD d = (y :: r).getLastD d := by
        rw [List.getLastD_eq_getLast?, List.getLastD_eq_getLast?,
          List.getLast?_cons_cons]
      rw [h1]
      exact List.mem_cons_of_mem x (ih d (by simp))

lemma getLastD_suffix {α : Type} (Q : List α) (d : α) (hne : Q ≠ []) :
    ∀ (U : List α), (U ++ Q).getLastD d = Q.getLastD d := by
  intro U
  induction U with
  | nil => rfl
  | cons u U' ih =>
    have h1 : (u :: U') ++ Q = u :: (U' ++ Q) := rfl
    have h2 : U' ++ Q ≠ [] := by
      intro h
      rw [List.append_eq_nil] at h
      exact hne h.2
    rw [h1]
    cases hUQ : U' ++ Q with
    | nil => exact absurd hUQ h2
    | cons w r =>
      have h3 : (u :: w :: r).getLastD d = (w :: r).getLastD d := by
        rw [List.getLastD_eq_getLast?, List.getLastD_eq_getLast?,
          List.getLast?_cons_cons]
      rw [h3, ← hUQ, ih]

lemma head_last_bound (n : Nat) (c : Cost) (htri : Triangle n c) :
    ∀ (l : List Nat) (x : Nat), (∀ v ∈ l, v < n) → x < n → l ≠ [] →
      c x (l.getLastD 0) ≤ tourCost c (x :: l) := by
  intro l
  induction l with
  | nil => intro x _ _ h; exact absurd rfl h
  | cons y r ih =>
    intro x hl hx _
    have hy : y < n := hl y (List.mem_cons_self y r)
    cases r with
    | nil => simp [tourCost_cons_cons, tourCost_single]
    | cons z r' =>
      have h1 : (y :: z :: r').getLastD 0 = (z :: r').getLastD 0 := by
        rw [List.getLastD_eq_getLast?, List.getLastD_eq_getLast?,
          List.getLast?_cons_cons]
      have hlast : (z :: r').getLastD 0 < n :=
        hl _ (List.mem_cons_of_mem y (getLastD_mem (z :: r') 0 (by simp)))
      have htr := htri x hx y hy ((z :: r').getLastD 0) hlast
      have hih := ih y (fun v hv => hl v (List.mem_cons_of_mem y hv)) hy (by simp)
      rw [h1, tourCost_cons_cons]
      have h2 : (y :: z :: r').getLastD 0 = (z :: r').getLastD 0 := h1
      calc c x ((z :: r').getLastD 0) ≤ c x y + c y ((z :: r').getLastD 0) := htr
        _ ≤ c x y + tourCost c (y :: z :: r') := by linarith
        _ = _ := rfl

end Tsp

namespace Tsp

lemma chargedW_cons (e : Edge) (l : List Edge) (visited : List Bool) :
    chargedW (e :: l) visited =
      (if (visited.getD e.head false && visited.getD e.tail false) = true
        then e.cost else 0) + chargedW l visited := by
  unfold chargedW
  rw [List.filter_cons]
  by_cases h : (visited.getD e.head false && visited.getD e.tail false) = true
  · rw [if_pos h, if_pos h]
    simp
  · rw [if_neg h, if_neg h]
    simp

lemma chargedW_nonneg (K : List Edge) (visited : List Bool)
    (hcost : ∀ e ∈ K, 0 ≤ e.cost) : 0 ≤ chargedW K visited := by
  apply List.sum_nonneg
  intro x hx
  obtain ⟨e, he, hex⟩ := List.mem_map.mp hx
  rw [← hex]
  exact hcost e (List.mem_of_mem_filter he)

lemma chargedW_le_treeWeight (visited : List Bool) :
    ∀ K : List Edge, (∀ e ∈ K, 0 ≤ e.cost) →
      chargedW K visited ≤ treeWeight K := by
  intro K
  induction K with
  | nil => intro _; simp [chargedW, treeWeight]
  | cons e l ih =>
    intro hcost
    have hc := hcost e (List.mem_cons_self e l)
    have hrec := ih (fun f hf => hcost f (List.mem_cons_of_mem e hf))
    rw [chargedW_cons]
    have htw : treeWeight (e :: l) = e.cost + treeWeight l := by
      simp [treeWeight]
    rw [htw]
    by_cases h : (visited.getD e.head false && visited.getD e.tail false) = true
    · rw [if_pos h]
      linarith
    · rw [if_neg h]
      linarith

lemma charged_pred_mono (visited : List Bool) (u : Nat) (e : Edge)
    (h : (visited.getD e.head false && visited.getD e.tail false) = true) :
    ((visited.set u true).getD e.head false &&
      (visited.set u true).getD e.tail false) = true := by
  rw [Bool.and_eq_true] at h ⊢
  constructor
  · by_cases hh : u = e.head
    · by_cases hlen : e.head < visited.length
      · rw [hh, getD_set_self visited e.head false true (hh ▸ hlen)]
      · exfalso
        rw [getD_of_le visited e.head false (by omega)] at h
        exact absurd h.1 (by simp)
    · rw [getD_set_ne visited u e.head false true hh]
      exact h.1
  · by_cases ht : u = e.tail
    · by_cases hlen : e.tail < visited.length
      · rw [ht, getD_set_self visited e.tail false true (ht ▸ hlen)]
      · exfalso
        rw [getD_of_le visited e.tail false (by omega)] at h
        exact absurd h.2 (by simp)
    · rw [getD_set_ne visited u e.tail false true ht]
      exact h.2

lemma chargedW_mono (visited : List Bool) (u : Nat) :
    ∀ K : List Edge, (∀ e ∈ K, 0 ≤ e.cost) →
      chargedW K visited ≤ chargedW K (visited.set u true) := by
  intro K
  induction K with
  | nil => intro _; simp [chargedW]
  | cons e l ih =>
    intro hcost
    have hc := hcost e (List.mem_cons_self e l)
    have hrec := ih (fun f hf => hcost f (List.mem_cons_of_mem e hf))
    rw [chargedW_cons, chargedW_cons]
    by_cases h : (visited.getD e.head false && visited.getD e.tail false) = true
    · rw [if_pos h, if_pos (charged_pred_mono visited u e h)]
      linarith
    · rw [if_neg h]
      by_cases h' : ((visited.set u true).getD e.head false &&
          (visited.set u true).getD e.tail false) = true
      · rw [if_pos h']
        linarith
      · rw [if_neg h']
        linarith

lemma chargedW_gain (visited : List Bool) (a u : Nat)
    (hulen : u < visited.length)
    (ha : visited.getD a false = true) (hu : visited.getD u false = false) :
    ∀ (K : List Edge), (∀ e ∈ K, 0 ≤ e.cost) →
      ∀ e₀ ∈ K, ((e₀.head = a ∧ e₀.tail = u) ∨ (e₀.head = u ∧ e₀.tail = a)) →
      chargedW K visited + e₀.cost ≤ chargedW K (visited.set u true) := by
  have hau : a ≠ u := by
    intro h
    rw [h, hu] at ha
    cases ha
  intro K
  induction K with
  | nil => intro _ e₀ he₀; cases he₀
  | cons e l ih =>
    intro hcost e₀ he₀ hends
    have hc := hcost e (List.mem_cons_self e l)
    rcases List.mem_cons.mp he₀ with rfl | he₀l
    · -- the flipped edge is at the head of the list
      have hpredF : (visited.getD e₀.head false &&
          visited.getD e₀.tail false) = false := by
        rcases hends with ⟨hh, ht⟩ | ⟨hh, ht⟩
        · rw [ht, hu, Bool.and_false]
        · rw [hh, hu, Bool.false_and]
      have hpredT : ((visited.set u true).getD e₀.head false &&
          (visited.set u true).getD e₀.tail false) = true := by
        rcases hends with ⟨hh, ht⟩ | ⟨hh, ht⟩
        · rw [hh, ht, getD_set_ne visited u a false true (fun h => hau h.symm),
            getD_set_self visited u false true hulen, ha, Bool.and_true]
        · rw [hh, ht, getD_set_ne visited u a false true (fun h => hau h.symm),
            getD_set_self visited u false true hulen, ha, Bool.true_and]
      rw [chargedW_cons, chargedW_cons, if_neg (by rw [hpredF]; simp),
        if_pos hpredT]
      have := chargedW_mono visited u l
        (fun f hf => hcost f (List.mem_cons_of_mem e₀ hf))
      linarith
    · have hrec := ih (fun f hf => hcost f (List.mem_cons_of_mem e hf))
        e₀ he₀l hends
      rw [chargedW_cons, chargedW_cons]
      by_cases h : (visited.getD e.head false && visited.getD e.tail false) = true
      · rw [if_pos h, if_pos (charged_pred_mono visited u e h)]
        linarith
      · rw [if_neg h]
        by_cases h' : ((visited.set u true).getD e.head false &&
            (visited.set u true).getD e.tail false) = true
        · rw [if_pos h']
          linarith
        · rw [if_neg h']
          linarith

lemma anch_mono (K : List Edge) (s Q P : List Nat)
    (h : Anch K s Q) (hsuf : Q <:+ P) : Anch K s P := by
  cases h with
  | nil => exact Anch.nil P
  | cons v rest _ Q' hQ' hne hrel hrest =>
    exact Anch.cons v rest P Q' (hQ'.trans hsuf) hne hrel hrest

lemma anch_prepend (K : List Edge) (P : List Nat) (u : Nat)
    (hPne : P ≠ []) (hPhead : P.headD 0 = u) :
    ∀ (xs rest : List Nat), (∀ x ∈ xs, edgeRel K u x) → Anch K rest P →
      Anch K (xs ++ rest) P := by
  intro xs
  induction xs with
  | nil => intro rest _ h; exact h
  | cons x xs' ih =>
    intro rest hx h
    exact Anch.cons x (xs' ++ rest) P P (List.suffix_refl P) hPne
      (by rw [hPhead]; exact hx x (List.mem_cons_self x xs'))
      (ih rest (fun y hy => hx y (List.mem_cons_of_mem x hy)) h)

end Tsp

namespace Tsp

/-- Cost bound for the traversal loop: if the ghost return path `P` of
the current vertex anchors the stack, the path ends at 0 and starts at
the last recorded vertex, and the cost of the tour so far plus the cost
of walking `P` is within twice the charged tree weight, then any tour
the loop returns costs at most twice the tree weight. -/
lemma dfsLoop_cost (n : Nat) (hn2 : 2 ≤ n) (c : Cost)
    (hsym : Symm n c) (htri : Triangle n c) (K : List Edge)
    (hval : ∀ e ∈ K, e.head < n ∧ e.tail < n ∧ e.cost = c e.head e.tail) :
    ∀ (fuel : Nat) (visited : List Bool) (stack tour P t : List Nat),
      visited.length = n →
      (∀ u ∈ stack, u < n) →
      (∀ v ∈ tour, v < n) →
      tour.Nodup →
      (∀ v, v < n → (visited.getD v false = true ↔ v ∈ tour)) →
      tour.headD 1 = 0 →
      P ≠ [] →
      P.headD 0 = tour.getLastD 0 →
      P.getLastD 0 = 0 →
      (∀ v ∈ P, v < n) →
      (∀ v ∈ P, visited.getD v false = true) →
      Anch K stack P →
      tourCost c tour + tourCost c P ≤ 2 * chargedW K visited →
      dfsLoop (buildAdj n K) n fuel visited stack tour = some t →
      tourCost c t ≤ 2 * treeWeight K := by
  have hnn : NonNeg n c := nonneg_of_symm_triangle n c hsym htri
  have hcost : ∀ e ∈ K, 0 ≤ e.cost := by
    intro e he
    rw [(hval e he).2.2]
    exact hnn _ (hval e he).1 _ (hval e he).2.1
  have hval2 : ∀ e ∈ K, e.head < n ∧ e.tail < n :=
    fun e he => ⟨(hval e he).1, (hval e he).2.1⟩
  intro fuel
  induction fuel with
  | zero =>
    intro visited stack tour P t _ _ _ _ _ _ _ _ _ _ _ _ _ heq
    cases heq
  | succ fuel ihf =>
    intro visited stack tour P t hvlen hstk htlt htnd hcorr hhead hPne
      hPhead hPlast hPlt hPvis hanch hphi heq
    have htne : tour ≠ [] := by
      intro h
      rw [h] at hhead
      exact absurd hhead (by simp)
    rw [dfsLoop_succ] at heq
    by_cases hdone : n ≤ tour.length
    · rw [if_pos hdone] at heq
      have ht : t = tour ++ [0] := (Option.some.injEq _ _ ▸ heq).symm
      -- the last tour vertex is not 0
      cases htour : tour with
      | nil => exact absurd htour htne
      | cons x rest =>
        rw [htour] at hhead hdone htnd
        have hx0 : x = 0 := by simpa using hhead
        cases rest with
        | nil =>
          exfalso
          simp at hdone
          omega
        | cons y r =>
          have hl1 : (x :: y :: r).getLastD 0 = (y :: r).getLastD 0 := by
            rw [List.getLastD_eq_getLast?, List.getLastD_eq_getLast?,
              List.getLast?_cons_cons]
          have hlmem : (y :: r).getLastD 0 ∈ y :: r :=
            getLastD_mem (y :: r) 0 (by simp)
          have hxnot : x ∉ y :: r := (List.nodup_cons.mp htnd).1
          have hl0 : (x :: y :: r).getLastD 0 ≠ 0 := by
            rw [hl1]
            intro h
            apply hxnot
            rw [hx0, ← h]
            exact hlmem
          -- so P has at least two vertices
          have hPh : P.headD 0 ≠ 0 := by
            rw [hPhead, htour]
            exact hl0
          cases hP : P with
          | nil => exact absurd hP hPne
          | cons p P' =>
            rw [hP] at hPh hPlast hPlt
            have hp0 : p ≠ 0 := by simpa using hPh
            cases P' with
            | nil =>
              exfalso
              exact hp0 (by simpa using hPlast)
            | cons z r' =>
              have hl2 : (p :: z :: r').getLastD 0 = (z :: r').getLastD 0 := by
                rw [List.getLastD_eq_getLast?, List.getLastD_eq_getLast?,
                  List.getLast?_cons_cons]
              have hclose : c p ((z :: r').getLastD 0) ≤
                  tourCost c (p :: z :: r') :=
                head_last_bound n c htri (z :: r') p
                  (fun v hv => hPlt v (List.mem_cons_of_mem p hv))
                  (hPlt p (List.mem_cons_self p (z :: r'))) (by simp)
              rw [hl2] at hPlast
              rw [hPlast] at hclose
              have hsnoc : tourCost c (tour ++ [0]) =
                  tourCost c tour + c (tour.getLastD 0) 0 :=
                tourCost_snoc c tour 0 htne
              have hPheq : p = tour.getLastD 0 := by
                have := hPhead
                rw [hP] at this
                simpa using this
              have hch := chargedW_le_treeWeight visited K hcost
              have hphi' := hphi
              rw [hP] at hphi'
              rw [ht, hsnoc, ← hPheq]
              linarith
    · rw [if_neg hdone] at heq
      cases hstack : stack with
      | nil =>
        rw [hstack] at heq
        cases heq
      | cons u rest =>
        rw [hstack] at heq hstk hanch
        dsimp only at heq
        have hun : u < n := hstk u (List.mem_cons_self u rest)
        have hud : visited.getD u true = visited.getD u false := by
          rw [getD_of_lt _ _ _ (by omega), getD_of_lt _ _ _ (by omega)]
        cases hanch with
        | cons _ _ _ Q hQ hQne hrel hrest =>
        by_cases huvis : visited.getD u false = true
        · rw [if_pos (by rw [hud]; exact huvis)] at heq
          exact ihf visited rest tour P t hvlen
            (fun v hv => hstk v (List.mem_cons_of_mem u hv))
            htlt htnd hcorr hhead hPne hPhead hPlast hPlt hPvis
            (anch_mono K rest Q P hrest hQ) hphi heq
        · have huvF : visited.getD u false = false := by
            simpa using huvis
          rw [if_neg (by rw [hud]; simpa using huvis)] at heq
          obtain ⟨U, hU⟩ := hQ
          -- the anchor vertex
          have haQ : Q.headD 0 ∈ Q := by
            cases Q with
            | nil => exact absurd rfl hQne
            | cons q Q' => exact List.mem_cons_self q Q'
          have haP : Q.headD 0 ∈ P := by
            rw [← hU]
            exact List.mem_append_right U haQ
          have han : Q.headD 0 < n := hPlt _ haP
          have havis : visited.getD (Q.headD 0) false = true := hPvis _ haP
          obtain ⟨e₀, he₀, hor⟩ := hrel
          have he₀c : e₀.cost = c (Q.headD 0) u := by
            rcases hor with ⟨hh, htl⟩ | ⟨hh, htl⟩
            · rw [(hval e₀ he₀).2.2, hh, htl]
            · rw [(hval e₀ he₀).2.2, hh, htl]
              exact hsym u hun (Q.headD 0) han
          have hunt : u ∉ tour := fun h => huvis ((hcorr u hun).mpr h)
          have hadj : ∀ v, v ∈ (buildAdj n K).getD u [] ↔ edgeRel K u v :=
            fun v => buildAdj_mem n K hval2 u v
          -- invariants for the recursive call
          apply ihf (visited.set u true)
            (((buildAdj n K).getD u []).reverse ++ rest) (tour ++ [u])
            (u :: Q) t
          · rw [List.length_set]
            exact hvlen
          · intro v hv
            rcases List.mem_append.mp hv with h | h
            · exact (edgeRel_lt n K hval2 ((hadj v).mp (List.mem_reverse.mp h))).2
            · exact hstk v (List.mem_cons_of_mem u h)
          · intro v hv
            rcases List.mem_append.mp hv with h | h
            · exact htlt v h
            · rw [List.mem_singleton.mp h]
              exact hun
          · refine htnd.append (List.nodup_singleton u) ?_
            intro a ha hb
            rw [List.mem_singleton.mp hb] at ha
            exact hunt ha
          · intro v hv
            by_cases hvu : v = u
            · rw [hvu, getD_set_self visited u false true (by omega)]
              simp
            · rw [getD_set_ne visited u v false true (fun h => hvu h.symm)]
              constructor
              · intro h
                exact List.mem_append_left _ ((hcorr v hv).mp h)
              · intro h
                rcases List.mem_append.mp h with h | h
                · exact (hcorr v hv).mpr h
                · exact absurd (List.mem_singleton.mp h) hvu
          · rw [headD_append_left tour [u] 1 htne]
            exact hhead
          · simp
          · have h1 : (u :: Q).headD 0 = u := rfl
            have h2 : (tour ++ [u]).getLastD 0 = u := by simp
            rw [h1, h2]
          · have := getLastD_suffix Q 0 hQne [u]
            rw [List.singleton_append] at this
            rw [this, ← getLastD_suffix Q 0 hQne U, hU]
            exact hPlast
          · intro v hv
            rcases List.mem_cons.mp hv with h | h
            · rw [h]
              exact hun
            · exact hPlt v (by rw [← hU]; exact List.mem_append_right U h)
          · intro v hv
            rcases List.mem_cons.mp hv with h | h
            · rw [h, getD_set_self visited u false true (by omega)]
            · by_cases hvu : v = u
              · rw [hvu, getD_set_self visited u false true (by omega)]
              · rw [getD_set_ne visited u v false true (fun hh => hvu hh.symm)]
                exact hPvis v (by rw [← hU]; exact List.mem_append_right U h)
          · refine anch_prepend K (u :: Q) u (by simp) rfl _ rest ?_
              (anch_mono K rest Q (u :: Q) hrest (List.suffix_cons u Q))
            intro x hx
            exact (hadj x).mp (List.mem_reverse.mp hx)
          · -- the potential inequality
            have hsnoc : tourCost c (tour ++ [u]) =
                tourCost c tour + c (tour.getLastD 0) u :=
              tourCost_snoc c tour u htne
            have hcons : tourCost c (u :: Q) =
                c u (Q.headD 0) + tourCost c Q :=
              tourCost_cons c u Q hQne
            have happ : tourCost c P =
                tourCost c (U ++ [Q.headD 0]) + tourCost c Q := by
              rw [← hU]
              exact tourCost_append c U Q hQne
            have hheadeq : P.headD 0 = (U ++ [Q.headD 0]).headD 0 := by
              rw [← hU]
              cases Q with
              | nil => exact absurd rfl hQne
              | cons q Q' => exact headD_append_eq U Q' q 0
            have hchain : c ((U ++ [Q.headD 0]).headD 0) u ≤
                tourCost c (U ++ [Q.headD 0]) + c (Q.headD 0) u :=
              chain_bound n c htri U (Q.headD 0) u
                (fun v hv => hPlt v (by rw [← hU]; exact List.mem_append_left Q hv))
                han hun
            have hsymau : c u (Q.headD 0) = c (Q.headD 0) u :=
              hsym u hun (Q.headD 0) han
            have hgain := chargedW_gain visited (Q.headD 0) u (by omega)
              havis huvF K hcost e₀ he₀ hor
            rw [he₀c] at hgain
            have hPl : tour.getLastD 0 = (U ++ [Q.headD 0]).headD 0 := by
              rw [← hPhead, hheadeq]
            rw [hsnoc, hcons, hPl]
            linarith
          · exact heq

end Tsp

namespace Tsp

lemma reach_endpoint (T : List Edge) :
    ∀ x y, Reach T x y → x = y ∨
      ((∃ e ∈ T, e.head = x ∨ e.tail = x) ∧
        (∃ e ∈ T, e.head = y ∨ e.tail = y)) := by
  intro x y h
  induction h with
  | rel a b hab =>
    obtain ⟨e, he, hor⟩ := hab
    right
    rcases hor with ⟨h1, h2⟩ | ⟨h1, h2⟩
    · exact ⟨⟨e, he, Or.inl h1⟩, ⟨e, he, Or.inr h2⟩⟩
    · exact ⟨⟨e, he, Or.inr h2⟩, ⟨e, he, Or.inl h1⟩⟩
  | refl a => exact Or.inl rfl
  | symm a b _ ih =>
    rcases ih with h | ⟨h1, h2⟩
    · exact Or.inl h.symm
    · exact Or.inr ⟨h2, h1⟩
  | trans a b d _ _ ih1 ih2 =>
    rcases ih1 with h1 | ⟨ha, hb⟩
    · rw [h1]
      exact ih2
    · rcases ih2 with h2 | ⟨_, hd⟩
      · rw [← h2]
        exact Or.inr ⟨ha, hb⟩
      · exact Or.inr ⟨ha, hd⟩

lemma isForest_cons (T : List Edge) (e : Edge) (hT : IsForest T)
    (hnr : ¬ Reach T e.head e.tail) : IsForest (e :: T) :=
  isForest_perm (e :: T) (T ++ [e]) (List.perm_append_singleton e T)
    (IsForest.snoc T e hT hnr)

lemma pathEdges_cons_cons (c : Cost) (u v : Nat) (l : List Nat) :
    pathEdges c (u :: v :: l) = ⟨u, v, c u v⟩ :: pathEdges c (v :: l) := rfl

lemma pathEdges_weight (c : Cost) :
    ∀ l : List Nat, treeWeight (pathEdges c l) = tourCost c l := by
  intro l
  induction l with
  | nil => rfl
  | cons u t ih =>
    cases t with
    | nil => rfl
    | cons v r =>
      rw [pathEdges_cons_cons, tourCost_cons_cons, ← ih]
      simp [treeWeight]

lemma pathEdges_mem (c : Cost) :
    ∀ l : List Nat, ∀ e ∈ pathEdges c l,
      e.head ∈ l ∧ e.tail ∈ l ∧ e.cost = c e.head e.tail := by
  intro l
  induction l with
  | nil => intro e he; cases he
  | cons u t ih =>
    cases t with
    | nil => intro e he; cases he
    | cons v r =>
      intro e he
      rw [pathEdges_cons_cons] at he
      rcases List.mem_cons.mp he with rfl | he'
      · exact ⟨List.mem_cons_self _ _,
          List.mem_cons_of_mem u (List.mem_cons_self v r), rfl⟩
      · obtain ⟨h1, h2, h3⟩ := ih e he'
        exact ⟨List.mem_cons_of_mem u h1, List.mem_cons_of_mem u h2, h3⟩

lemma pathEdges_reach_head (c : Cost) :
    ∀ (l : List Nat) (x : Nat), x ∈ l →
      Reach (pathEdges c l) (l.headD 0) x := by
  intro l
  induction l with
  | nil => intro x hx; cases hx
  | cons u t ih =>
    cases t with
    | nil =>
      intro x hx
      rw [List.mem_singleton.mp hx]
      exact reach_refl _ u
    | cons v r =>
      intro x hx
      rw [List.headD_cons]
      rcases List.mem_cons.mp hx with h | hx'
      · rw [h]
        exact reach_refl _ u
      · have huv : Reach (pathEdges c (u :: v :: r)) u v :=
          reach_of_mem _ ⟨u, v, c u v⟩
            (by rw [pathEdges_cons_cons]; exact List.mem_cons_self _ _)
        have hvx : Reach (pathEdges c (v :: r)) v x := by
          have := ih x hx'
          rw [List.headD_cons] at this
          exact this
        have hvx' : Reach (pathEdges c (u :: v :: r)) v x := by
          refine reach_mono _ _ ?_ hvx
          intro e he
          rw [pathEdges_cons_cons]
          exact List.mem_cons_of_mem _ he
        exact reach_trans _ huv hvx'

lemma pathEdges_forest (c : Cost) :
    ∀ l : List Nat, l.Nodup → IsForest (pathEdges c l) := by
  intro l
  induction l with
  | nil => intro _; exact IsForest.nil
  | cons u t ih =>
    cases t with
    | nil => intro _; exact IsForest.nil
    | cons v r =>
      intro hnd
      rw [pathEdges_cons_cons]
      refine isForest_cons _ _ (ih (List.nodup_cons.mp hnd).2) ?_
      intro hreach
      have hunot : u ∉ v :: r := (List.nodup_cons.mp hnd).1
      rcases reach_endpoint _ _ _ hreach with h | ⟨⟨e, he, hor⟩, _⟩
      · apply hunot
        simp only [] at h
        rw [show u = v from h]
        exact List.mem_cons_self v r
      · obtain ⟨h1, h2, _⟩ := pathEdges_mem c (v :: r) e he
        apply hunot
        rcases hor with hh | hh
        · rw [show u = e.head from hh.symm]
          exact h1
        · rw [show u = e.tail from hh.symm]
          exact h2

end Tsp

namespace Tsp

/-- A Hamiltonian cycle decomposes as a permutation of `[0, n)` followed
by the closing `0`. -/
lemma isTour_decomp (n : Nat) (t : List Nat) (h : IsTour n t) :
    t = t.take n ++ [0] ∧ (t.take n).length = n ∧
      (t.take n).Perm (List.range n) := by
  obtain ⟨hlen, hh, hl, hcnt⟩ := h
  have hdl : (t.drop n).length = 1 := by
    rw [List.length_drop, hlen]
    omega
  obtain ⟨a, ha⟩ := List.length_eq_one.mp hdl
  have hsplit : t = t.take n ++ [a] := by
    rw [← ha]
    exact (List.take_append_drop n t).symm
  have ha0 : a = 0 := by
    rw [hsplit] at hl
    simpa using hl
  have htl : (t.take n).length = n := by
    rw [List.length_take, hlen]
    omega
  refine ⟨by rw [← ha0]; exact hsplit, htl, ?_⟩
  have hle : (↑(List.range n) : Multiset ℕ) ≤ ↑(t.take n) := by
    rw [Multiset.le_iff_count]
    intro x
    rw [Multiset.coe_count, Multiset.coe_count]
    by_cases hx : x < n
    · rw [List.count_eq_one_of_mem (List.nodup_range n) (List.mem_range.mpr hx),
        hcnt x hx]
    · rw [List.count_eq_zero_of_not_mem (by simpa using hx)]
      omega
  have heq := Multiset.eq_of_le_of_card_le hle (by simp [htl])
  exact Multiset.coe_eq_coe.mp heq.symm

/-- Every Hamiltonian cycle supports a spanning tree (the path traced by
its first `n` vertices) of no greater weight. -/
lemma tour_tree_bound (n : Nat) (hn : 1 ≤ n) (c : Cost) (hnn : NonNeg n c)
    (t : List Nat) (h : IsTour n t) :
    SpanningTree n c (pathEdges c (t.take n)) ∧
      treeWeight (pathEdges c (t.take n)) ≤ tourCost c t := by
  obtain ⟨hsplit, htl, hperm⟩ := isTour_decomp n t h
  have hmem : ∀ v, v ∈ t.take n ↔ v < n := by
    intro v
    rw [hperm.mem_iff, List.mem_range]
  have hnd : (t.take n).Nodup := hperm.nodup_iff.mpr (List.nodup_range n)
  have hne : t.take n ≠ [] := by
    intro hnil
    rw [hnil] at htl
    simp at htl
    omega
  have h0 : (0 : Nat) ∈ t.take n := (hmem 0).mpr (by omega)
  constructor
  · refine ⟨?_, pathEdges_forest c (t.take n) hnd, ?_⟩
    · intro e he
      obtain ⟨h1, h2, h3⟩ := pathEdges_mem c (t.take n) e he
      exact ⟨(hmem _).mp h1, (hmem _).mp h2, h3⟩
    · intro x hx y hy
      have hrx := pathEdges_reach_head c (t.take n) x ((hmem x).mpr hx)
      have hry := pathEdges_reach_head c (t.take n) y ((hmem y).mpr hy)
      exact reach_trans _ (reach_symm _ hrx) hry
  · rw [pathEdges_weight]
    have hlastmem : (t.take n).getLastD 0 ∈ t.take n :=
      getLastD_mem (t.take n) 0 hne
    have hclose : 0 ≤ c ((t.take n).getLastD 0) 0 :=
      hnn _ ((hmem _).mp hlastmem) 0 (by omega)
    calc tourCost c (t.take n)
        ≤ tourCost c (t.take n) + c ((t.take n).getLastD 0) 0 := by linarith
      _ = tourCost c (t.take n ++ [0]) := (tourCost_snoc c (t.take n) 0 hne).symm
      _ = tourCost c t := by rw [← hsplit]

/-- Kruskal's result is a minimum spanning tree (shared form of the C3
argument, usable by the approximation bound). -/
lemma mst_minimal (n : Nat) (hn : 1 ≤ n) (c : Cost) (hsym : Symm n c) :
    ∃ K, mst n c = some K ∧ K.length = n - 1 ∧ SpanningTree n c K ∧
      ∀ T, SpanningTree n c T → treeWeight K ≤ treeWeight T := by
  obtain ⟨K, hK, hlen, hfor, hval, hspan, hsort, hgreedy⟩ := mst_spec n hn c
  refine ⟨K, hK, hlen, ⟨hval, hfor, hspan⟩, ?_⟩
  intro T hT
  have hTlen := spanningTree_length n hn c T hT
  have hperm := sortEdges_perm T
  have hSTfor : IsForest (sortEdges T) :=
    isForest_perm (sortEdges T) T hperm.symm hT.2.1
  have hSTval : ∀ e ∈ sortEdges T,
      e.head < n ∧ e.tail < n ∧ e.cost = c e.head e.tail :=
    fun e he => hT.1 e (hperm.mem_iff.mp he)
  have hSTsort := sortEdges_sorted T
  have hSTlen : (sortEdges T).length = n - 1 := by
    rw [hperm.length_eq, hTlen]
  have hpt := kruskal_pointwise n c hsym K (sortEdges T) hfor hval hsort hgreedy
    hSTfor hSTval hSTsort
  have hle := treeWeight_le_of_pointwise K (sortEdges T) (by omega) hpt
  rw [treeWeight_perm (sortEdges T) T hperm] at hle
  exact hle

end Tsp

namespace Tsp

/-- The reconstruction loop extends the partial tour with distinct fresh
vertices and closes it at 0, producing a Hamiltonian cycle. -/
lemma tspRecon_isTour (c : Cost) (n : Nat) (tbl : List (List ℚ)) :
    ∀ (iters : Nat) (tour : List Nat) (selected : List Bool) (s : Nat)
      (t : List Nat),
      selected.length = n →
      iters + tour.length = n →
      tour.Nodup →
      (∀ v ∈ tour, v < n) →
      tour.headD 1 = 0 →
      (∀ v, v < n → (selected.getD v true = true ↔ v ∈ tour)) →
      tspRecon c n tbl iters tour selected s = some t →
      IsTour n t := by
  intro iters
  induction iters with
  | zero =>
    intro tour selected s t hslen hcnt htnd htlt hhead hcorr heq
    have ht : t = tour ++ [0] := by
      rw [tspRecon] at heq
      exact (Option.some.injEq _ _ ▸ heq).symm
    have htlen : tour.length = n := by omega
    have htne : tour ≠ [] := by
      intro h
      rw [h] at hhead
      exact absurd hhead (by simp)
    refine ⟨?_, ?_, ?_, ?_⟩
    · rw [ht]
      simp [htlen]
    · rw [ht, headD_append_left tour [0] 1 htne]
      exact hhead
    · rw [ht]
      simp
    · intro v hv
      have hmem : v ∈ tour := nodup_full_mem n tour htnd htlt (by omega) v hv
      have htake : (t.take n) = tour := by
        rw [ht, ← htlen]
        exact List.take_left tour [0]
      rw [htake]
      exact List.count_eq_one_of_mem htnd hmem
  | succ it ih =>
    intro tour selected s t hslen hcnt htnd htlt hhead hcorr heq
    rw [tspRecon] at heq
    cases hbk : bestK c n tbl selected s (tour.getLastD 0) with
    | none =>
      rw [hbk] at heq
      cases heq
    | some p =>
      obtain ⟨m, bk⟩ := p
      rw [hbk] at heq
      dsimp only at heq
      obtain ⟨hbkn, hbkf⟩ := bestK_mem c n tbl selected s (tour.getLastD 0) m bk hbk
      have hbknot : bk ∉ tour := by
        intro hmem
        have := (hcorr bk hbkn).mpr hmem
        rw [hbkf] at this
        cases this
      have htne : tour ≠ [] := by
        intro h
        rw [h] at hhead
        exact absurd hhead (by simp)
      apply ih (tour ++ [bk]) (selected.set bk true) (s - 2 ^ bk) t
      · simpa using hslen
      · rw [List.length_append]
        simp
        omega
      · refine htnd.append (List.nodup_singleton bk) ?_
        intro a ha hb
        rw [List.mem_singleton.mp hb] at ha
        exact hbknot ha
      · intro v hv
        rcases List.mem_append.mp hv with h | h
        · exact htlt v h
        · rw [List.mem_singleton.mp h]
          exact hbkn
      · rw [headD_append_left tour [bk] 1 htne]
        exact hhead
      · intro v hv
        by_cases hvbk : v = bk
        · rw [hvbk, getD_set_self selected bk true true (by omega)]
          simp
        · rw [getD_set_ne selected bk v true true (fun h => hvbk h.symm)]
          rw [hcorr v hv]
          constructor
          · intro h
            exact List.mem_append_left _ h
          · intro h
            rcases List.mem_append.mp h with h | h
            · exact h
            · exact absurd (List.mem_singleton.mp h) hvbk
      · exact heq

/-- The exact solver always returns a structurally valid Hamiltonian
cycle (its cost, however, need not be minimal — see C1). -/
lemma tsp_isTour (n : Nat) (hn : 1 ≤ n) (c : Cost) (t : List Nat)
    (heq : tsp n c = some t) : IsTour n t := by
  unfold tsp at heq
  apply tspRecon_isTour c n (dpTable c n) (n - 1) [0]
    ((List.replicate n false).set 0 true) (2 ^ n - 1) t
  · simp
  · simp
    omega
  · exact List.nodup_singleton 0
  · intro v hv
    rw [List.mem_singleton.mp hv]
    omega
  · rfl
  · intro v hv
    by_cases hv0 : v = 0
    · rw [hv0, getD_set_self _ _ _ _ (by simp; omega)]
      simp
    · rw [getD_set_ne _ _ _ _ _ (fun h => hv0 h.symm)]
      constructor
      · intro h
        rw [getD_of_lt _ _ _ (by simpa using hv)] at h
        simp at h
      · intro h
        exact absurd (List.mem_singleton.mp h) hv0
  · exact heq

end Tsp

namespace Tsp

/-- C2: for every n ≥ 1 and every symmetric cost matrix satisfying the
triangle inequality, the tour returned by `metric_tsp` costs at most
twice any Hamiltonian cycle — in particular, the minimum one and the
tour returned by `tsp` on the same input. -/
theorem c2_metric_two_approximation (n : Nat) (hn : 1 ≤ n) (c : Cost)
    (hsym : Symm n c) (htri : Triangle n c) :
    ∃ t, metricTsp n c = some t ∧
      (∀ t', IsTour n t' → tourCost c t ≤ 2 * tourCost c t') ∧
      (∀ t'', tsp n c = some t'' → tourCost c t ≤ 2 * tourCost c t'') := by
  have hnn : NonNeg n c := nonneg_of_symm_triangle n c hsym htri
  have main : ∃ t, metricTsp n c = some t ∧
      ∀ t', IsTour n t' → tourCost c t ≤ 2 * tourCost c t' := by
    by_cases hn2 : 2 ≤ n
    · obtain ⟨K, hK, hKlen, hKst, hKmin⟩ := mst_minimal n hn c hsym
      obtain ⟨hKval, hKfor, hKspan⟩ := hKst
      have hval2 : ∀ e ∈ K, e.head < n ∧ e.tail < n :=
        fun e he => ⟨(hKval e he).1, (hKval e he).2.1⟩
      have hcost : ∀ e ∈ K, 0 ≤ e.cost := by
        intro e he
        rw [(hKval e he).2.2]
        exact hnn _ (hKval e he).1 _ (hKval e he).2.1
      have hlenrep : (List.replicate n false).length = n :=
        List.length_replicate n false
      have h0rep : (List.replicate n false).getD 0 true = false := by
        rw [getD_of_lt _ _ _ (by omega)]
        simp
      have h1 : dfsLoop (buildAdj n K) n (2 * n + 2)
          (List.replicate n false) [0] [] =
          dfsLoop (buildAdj n K) n (2 * n + 1)
            ((List.replicate n false).set 0 true)
            (((buildAdj n K).getD 0 []).reverse ++ []) ([] ++ [0]) := by
        rw [show 2 * n + 2 = (2 * n + 1) + 1 from rfl, dfsLoop_succ]
        rw [if_neg (by simp; omega)]
        dsimp only
        rw [if_neg (by rw [h0rep]; simp)]
      obtain ⟨t, hmt, htour⟩ := metricTsp_tour n hn c
      have heq0 : dfsLoop (buildAdj n K) n (2 * n + 2)
          (List.replicate n false) [0] [] = some t := by
        have hthis := hmt
        unfold metricTsp at hthis
        rw [hK] at hthis
        dsimp only at hthis
        exact hthis
      rw [h1] at heq0
      have hadj0 : ∀ v, v ∈ (buildAdj n K).getD 0 [] ↔ edgeRel K 0 v :=
        fun v => buildAdj_mem n K hval2 0 v
      have hbound : tourCost c t ≤ 2 * treeWeight K := by
        apply dfsLoop_cost n hn2 c hsym htri K hKval (2 * n + 1)
          ((List.replicate n false).set 0 true)
          (((buildAdj n K).getD 0 []).reverse ++ []) ([] ++ [0]) [0] t
        · rw [List.length_set]
          exact hlenrep
        · intro v hv
          rw [List.append_nil, List.mem_reverse] at hv
          exact (edgeRel_lt n K hval2 ((hadj0 v).mp hv)).2
        · intro v hv
          simp only [List.nil_append, List.mem_singleton] at hv
          omega
        · simp
        · intro v hv
          by_cases hv0 : v = 0
          · rw [hv0, getD_set_self _ _ _ _ (by omega)]
            simp
          · rw [getD_set_ne _ _ _ _ _ (fun h => hv0 h.symm),
              getD_replicate_false]
            simp [hv0]
        · rfl
        · simp
        · rfl
        · rfl
        · intro v hv
          rw [List.mem_singleton.mp hv]
          omega
        · intro v hv
          rw [List.mem_singleton.mp hv, getD_set_self _ _ _ _ (by omega)]
        · refine anch_prepend K [0] 0 (by simp) rfl _ [] ?_ (Anch.nil [0])
          intro x hx
          exact (hadj0 x).mp (List.mem_reverse.mp hx)
        · have h0c := chargedW_nonneg K
            ((List.replicate n false).set 0 true) hcost
          have hz : tourCost c ([] ++ [0]) + tourCost c [0] = 0 := by
            simp [tourCost_single]
          rw [hz]
          linarith
        · exact heq0
      refine ⟨t, hmt, ?_⟩
      intro t' ht'
      obtain ⟨hst', hw'⟩ := tour_tree_bound n hn c hnn t' ht'
      have hmin := hKmin _ hst'
      linarith
    · have hn1 : n = 1 := by omega
      subst hn1
      refine ⟨[0, 0], by with_unfolding_all rfl, ?_⟩
      intro t' ht'
      obtain ⟨hsplit, htl, hperm⟩ := isTour_decomp 1 t' ht'
      have htake : t'.take 1 = [0] := by
        obtain ⟨a, ha⟩ := List.length_eq_one.mp htl
        have ham : a ∈ t'.take 1 := by
          rw [ha]
          exact List.mem_singleton_self a
        have ha0 : a = 0 := by
          have := hperm.mem_iff.mp ham
          simpa using this
        rw [ha, ha0]
      rw [hsplit, htake]
      have h00 : tourCost c [0, 0] = c 0 0 := by
        rw [tourCost_cons_cons, tourCost_single]
        ring
      have hnn00 := hnn 0 (by omega) 0 (by omega)
      have hgoal : tourCost c ([0] ++ [0] : List Nat) = c 0 0 := h00
      rw [hgoal, h00]
      linarith
  obtain ⟨t, hmt, hbound⟩ := main
  refine ⟨t, hmt, hbound, ?_⟩
  intro t'' heq''
  exact hbound t'' (tsp_isTour n hn c t'' heq'')

/-- Witness for C2 at n = 3 on the unit metric. -/
theorem c2_metric_two_approximation_witness :
    ∃ t, metricTsp 3 (matOf [[0,1,1],[1,0,1],[1,1,0]]) = some t ∧
      (∀ t', IsTour 3 t' → tourCost (matOf [[0,1,1],[1,0,1],[1,1,0]]) t ≤
        2 * tourCost (matOf [[0,1,1],[1,0,1],[1,1,0]]) t') ∧
      (∀ t'', tsp 3 (matOf [[0,1,1],[1,0,1],[1,1,0]]) = some t'' →
        tourCost (matOf [[0,1,1],[1,0,1],[1,1,0]]) t ≤
          2 * tourCost (matOf [[0,1,1],[1,0,1],[1,1,0]]) t'') :=
  c2_metric_two_approximation 3 (by decide) (matOf [[0,1,1],[1,0,1],[1,1,0]])
    (by with_unfolding_all decide) (by with_unfolding_all decide)

end Tsp
